import Mathlib

/-!
Verification of the SelectionSetManager data model (`SelectionSetManager/managers.py`).

The manager keeps Python dictionaries keyed by set / group name.  Python
dictionaries preserve insertion order, update values in place, and append new
keys at the end; they are modelled here as association lists
`List (String × α)` with exactly those semantics (`dictLookup`, `dictInsert`,
`dictErase`).  Scene queries (`cmds.objExists`, attribute existence) are
modelled as boolean oracles passed in as parameters; `cmds.select`,
`cmds.warning` and `cmds.inViewMessage` only produce observable outputs, which
the modelled operations return as values.
-/

namespace SelMgr

/-- First-match lookup, like Python `d[k]` / `d.get(k)`. -/
def dictLookup {α : Type} (l : List (String × α)) (k : String) : Option α :=
  match l with
  | [] => none
  | (k', v) :: t => if k' = k then some v else dictLookup t k

/-- Python `k in d`. -/
def dictContains {α : Type} (l : List (String × α)) (k : String) : Bool :=
  (dictLookup l k).isSome

/-- Python `d[k] = v`: update the existing entry in place, else append. -/
def dictInsert {α : Type} (l : List (String × α)) (k : String) (v : α) :
    List (String × α) :=
  match l with
  | [] => [(k, v)]
  | (k', v') :: t => if k' = k then (k', v) :: t else (k', v') :: dictInsert t k v

/-- Python `del d[k]` (all call sites guard on presence first). -/
def dictErase {α : Type} (l : List (String × α)) (k : String) :
    List (String × α) :=
  match l with
  | [] => []
  | (k', v') :: t => if k' = k then t else (k', v') :: dictErase t k

/-- The keys of a dictionary, in order. -/
def dictKeys {α : Type} (l : List (String × α)) : List String :=
  l.map Prod.fst

/-- Python `if old in d: d[new] = d[old]; del d[old]` (used by the rename
operations for every per-name property dictionary). -/
def moveKey {α : Type} (l : List (String × α)) (old new : String) :
    List (String × α) :=
  match dictLookup l old with
  | none => l
  | some v => dictErase (dictInsert l new v) old

/-- Python `max(...)` over a non-empty list (the sources guard for emptiness). -/
def pyMax (xs : List Int) : Int :=
  match xs with
  | [] => 0
  | x :: t => t.foldl max x

/-- In-memory registries of `SelectionSetManager.__init__`.  The
`background_image` path is omitted: it is only ever a host file-system path
and none of the claims mention it (`export_data` below therefore models the
no-background-image case, writing `null`). -/
structure MState where
  sets : List (String × List String)
  set_positions : List (String × Int × Int)
  set_colors : List (String × Int × Int × Int)
  set_sizes : List (String × Int × Int)
  set_transparency : List (String × Int)
  set_parents : List (String × Option String)
  active_channels : List (String × Bool)
  parent_groups : List (String × List String)
  group_positions : List (String × Int × Int)
  group_colors : List (String × Int × Int × Int)
  group_sizes : List (String × Int × Int)
  group_transparency : List (String × Int)
  deriving Repr, DecidableEq

/-- The state built by `SelectionSetManager.__init__`. -/
def initState : MState :=
  { sets := [], set_positions := [], set_colors := [], set_sizes := []
    set_transparency := [], set_parents := []
    active_channels :=
      [("tx", true), ("ty", true), ("tz", true),
       ("rx", true), ("ry", true), ("rz", true)]
    parent_groups := [], group_positions := [], group_colors := []
    group_sizes := [], group_transparency := [] }

/-- `add_set_to_group`: validate both names, remove the set from every group
(`list.remove` drops the first occurrence), then append it to the target group
unless already present. -/
def add_set_to_group (st : MState) (set_name group_name : String) :
    MState × Bool :=
  if !(dictContains st.sets set_name) then (st, false)
  else if !(dictContains st.parent_groups group_name) then (st, false)
  else
    let pg := st.parent_groups.map (fun e => (e.1, e.2.erase set_name))
    let cur := (dictLookup pg group_name).getD []
    let pg' := if set_name ∈ cur then pg else dictInsert pg group_name (cur ++ [set_name])
    ({ st with parent_groups := pg' }, true)

/-- `remove_set_from_group`: `group_name = none` models the Python default
`None`, which removes the set from every group. -/
def remove_set_from_group (st : MState) (set_name : String)
    (group_name : Option String) : MState × Bool :=
  if !(dictContains st.sets set_name) then (st, false)
  else
    match group_name with
    | some g =>
        if !(dictContains st.parent_groups g) then (st, false)
        else
          let cur := (dictLookup st.parent_groups g).getD []
          let pg :=
            if set_name ∈ cur then dictInsert st.parent_groups g (cur.erase set_name)
            else st.parent_groups
          ({ st with parent_groups := pg }, true)
    | none =>
        ({ st with parent_groups :=
            st.parent_groups.map (fun e => (e.1, e.2.erase set_name)) }, true)

/-- `rename_parent_group`. -/
def rename_parent_group (st : MState) (old_name new_name : String) :
    MState × Bool :=
  if !(dictContains st.parent_groups old_name) then (st, false)
  else if dictContains st.parent_groups new_name then (st, false)
  else
    let pg := dictInsert st.parent_groups new_name
      ((dictLookup st.parent_groups old_name).getD [])
    ({ st with
        parent_groups := dictErase pg old_name
        group_positions := moveKey st.group_positions old_name new_name
        group_colors := moveKey st.group_colors old_name new_name
        group_sizes := moveKey st.group_sizes old_name new_name
        group_transparency := moveKey st.group_transparency old_name new_name },
     true)

/-- `delete_parent_group`: discards the group container and its visual
properties only. -/
def delete_parent_group (st : MState) (name : String) : MState × Bool :=
  if !(dictContains st.parent_groups name) then (st, false)
  else
    ({ st with
        parent_groups := dictErase st.parent_groups name
        group_positions := dictErase st.group_positions name
        group_colors := dictErase st.group_colors name
        group_sizes := dictErase st.group_sizes name
        group_transparency := dictErase st.group_transparency name }, true)

/-- The `while set_name in taken: set_name = f"{name}_{counter}"` loop of
`create_set` / `create_parent_group`.  The Python loop is unbounded; the fuel
bounds the modelled search and `none` marks exhaustion (never reached in the
theorems below, which evaluate on concrete states). -/
def freshNameAux {α : Type} (taken : List (String × α)) (base : String) :
    Nat → String → Nat → Option String
  | 0, _, _ => none
  | fuel + 1, cand, counter =>
      if dictContains taken cand then
        freshNameAux taken base fuel (base ++ "_" ++ toString counter) (counter + 1)
      else some cand

def freshName {α : Type} (taken : List (String × α)) (base : String) :
    Option String :=
  freshNameAux taken base (taken.length + 1) base 1

/-- `create_set`: `selection` models `cmds.ls(selection=True, long=True)`;
an empty selection is rejected (`return None`). -/
def create_set (st : MState) (selection : List String) (name : String) :
    MState × Option String :=
  if selection.isEmpty then (st, none)
  else
    match freshName st.sets name with
    | none => (st, none)
    | some set_name =>
        let pos : Int × Int :=
          if st.set_positions.isEmpty then (20, 20)
          else
            (pyMax (st.set_positions.map (fun e => e.2.1)) + 20,
             pyMax (st.set_positions.map (fun e => e.2.2)) + 20)
        ({ st with
            sets := dictInsert st.sets set_name selection
            set_positions := dictInsert st.set_positions set_name pos
            set_colors := dictInsert st.set_colors set_name (70, 70, 70)
            set_sizes := dictInsert st.set_sizes set_name (200, 150)
            set_transparency := dictInsert st.set_transparency set_name 180
            set_parents := dictInsert st.set_parents set_name none },
         some set_name)

/-- `create_parent_group`. -/
def create_parent_group (st : MState) (name : String) : MState × Option String :=
  match freshName st.parent_groups name with
  | none => (st, none)
  | some group_name =>
      let pos : Int × Int :=
        if !st.group_positions.isEmpty then
          (pyMax (st.group_positions.map (fun e => e.2.1)) + 20,
           pyMax (st.group_positions.map (fun e => e.2.2)) + 20)
        else if !st.set_positions.isEmpty then
          (pyMax (st.set_positions.map (fun e => e.2.1)) + 20,
           pyMax (st.set_positions.map (fun e => e.2.2)) + 20)
        else (20, 20)
      ({ st with
          parent_groups := dictInsert st.parent_groups group_name []
          group_positions := dictInsert st.group_positions group_name pos
          group_colors := dictInsert st.group_colors group_name (100, 100, 60)
          group_sizes := dictInsert st.group_sizes group_name (300, 200)
          group_transparency := dictInsert st.group_transparency group_name 180 },
       some group_name)

/-- `rename_set`: move the full property bundle from `old_name` to `new_name`,
then rewrite parent pointers and group membership lists (`remove` + `append`). -/
def rename_set (st : MState) (old_name new_name : String) : MState × Bool :=
  if !(dictContains st.sets old_name) then (st, false)
  else if dictContains st.sets new_name then (st, false)
  else
    let sets1 := dictInsert st.sets new_name ((dictLookup st.sets old_name).getD [])
    let sp1 := moveKey st.set_parents old_name new_name
    let sp2 := sp1.map
      (fun e => (e.1, if e.2 = some old_name then some new_name else e.2))
    let pg := st.parent_groups.map
      (fun e => (e.1, if old_name ∈ e.2 then e.2.erase old_name ++ [new_name] else e.2))
    ({ st with
        sets := dictErase sets1 old_name
        set_positions := moveKey st.set_positions old_name new_name
        set_colors := moveKey st.set_colors old_name new_name
        set_sizes := moveKey st.set_sizes old_name new_name
        set_transparency := moveKey st.set_transparency old_name new_name
        set_parents := sp2
        parent_groups := pg }, true)

/-- `delete_set`: remove the set's own entries, null out children's parent
pointers, then call `remove_set_from_group(name)` — whose own
`set_name not in self.sets` guard is already true at that point, so it
returns `False` without touching the group registries. -/
def delete_set (st : MState) (name : String) : MState × Bool :=
  if dictContains st.sets name then
    let sp1 := dictErase st.set_parents name
    let sp2 := sp1.map (fun e => (e.1, if e.2 = some name then none else e.2))
    let st1 : MState :=
      { st with
          sets := dictErase st.sets name
          set_positions := dictErase st.set_positions name
          set_colors := dictErase st.set_colors name
          set_sizes := dictErase st.set_sizes name
          set_transparency := dictErase st.set_transparency name
          set_parents := sp2 }
    ((remove_set_from_group st1 name none).1, true)
  else (st, false)

/-- `would_create_circular_reference`: walk the parent chain starting at the
proposed parent.  The Python `while ancestor:` loop stops on `None` and on the
empty string (both falsy) and is unbounded; the fuel argument bounds the walk,
and `set_parents.length + 1` steps are enough whenever the chain terminates
(in particular on every cycle-free state, as proved below). -/
def wccrAux (sp : List (String × Option String)) (child : String) :
    Nat → Option String → Bool
  | _, none => false
  | 0, some _ => false
  | fuel + 1, some a =>
      if a = "" then false
      else if a = child then true
      else wccrAux sp child fuel ((dictLookup sp a).join)

def would_create_circular_reference (st : MState) (child_name parent_name : String) :
    Bool :=
  wccrAux st.set_parents child_name (st.set_parents.length + 1) (some parent_name)

/-- Which of the guarded branches of `set_parent` fired: the source signals
them through `cmds.warning` messages plus a `False` return. -/
inductive SetParentResult where
  | success
  | childNotFound
  | parentNotFound
  | cycleRejected
  deriving Repr, DecidableEq

/-- `set_parent`.  Python checks `if parent_name and ...`, so an empty-string
parent name skips both the existence check and the cycle check and is stored
verbatim. -/
def set_parent (st : MState) (child_name : String) (parent_name : Option String) :
    MState × SetParentResult :=
  if !(dictContains st.sets child_name) then (st, .childNotFound)
  else
    match parent_name with
    | some p =>
        if p = "" then
          ({ st with set_parents := dictInsert st.set_parents child_name parent_name },
           .success)
        else if !(dictContains st.sets p) then (st, .parentNotFound)
        else if would_create_circular_reference st child_name p then
          (st, .cycleRejected)
        else
          ({ st with set_parents := dictInsert st.set_parents child_name parent_name },
           .success)
    | none =>
        ({ st with set_parents := dictInsert st.set_parents child_name none },
         .success)

/-- Value of one channel flag (`self.active_channels["tx"]`; the six keys are
always present, so the default is never read). -/
def chanOn (ch : List (String × Bool)) (k : String) : Bool :=
  (dictLookup ch k).getD false

/-- The `.tx`/`.ty`/... suffix list built by
`select_objects_with_channel_filtering`, in source order. -/
def activeComponents (ch : List (String × Bool)) : List String :=
  (if chanOn ch "tx" then [".tx"] else []) ++
  (if chanOn ch "ty" then [".ty"] else []) ++
  (if chanOn ch "tz" then [".tz"] else []) ++
  (if chanOn ch "rx" then [".rx"] else []) ++
  (if chanOn ch "ry" then [".ry"] else []) ++
  (if chanOn ch "rz" then [".rz"] else [])

/-- `all(self.active_channels.values())`. -/
def allChannels (ch : List (String × Bool)) : Bool :=
  ch.all (fun e => e.2)

/-- `any(self.active_channels.values())`. -/
def anyChannels (ch : List (String × Bool)) : Bool :=
  ch.any (fun e => e.2)

/-- The `selected_attrs` list: the nested
`for obj in objects: for component in active_components:` loop keeping the
attribute paths that exist. -/
def selectedChannelAttrs (ch : List (String × Bool))
    (attrExists : String → Bool) (objects : List String) : List String :=
  (objects.map (fun obj =>
    (activeComponents ch).filterMap (fun c =>
      if attrExists (obj ++ c) then some (obj ++ c) else none))).flatten

/-- Outcome of `select_objects_with_channel_filtering`: `none` when no select
call is issued (empty input), otherwise the finally selected paths together
with the optional `inViewMessage` payload
`(len(selected_attrs), len(objects))`.  `attrExists` models
`cmds.objExists` on attribute paths; it is total, so the `except` fallback
branch of the source cannot fire. -/
def select_objects_with_channel_filtering (ch : List (String × Bool))
    (attrExists : String → Bool) (objects : List String) :
    Option (List String × Option (Nat × Nat)) :=
  if objects.isEmpty then none
  else if allChannels ch || !anyChannels ch then some (objects, none)
  else
    let selectedAttrs := selectedChannelAttrs ch attrExists objects
    if !selectedAttrs.isEmpty then
      some (selectedAttrs, some (selectedAttrs.length, objects.length))
    else
      -- the whole objects selected at the top of the `try` block remain
      -- selected, and no message of any kind is emitted
      some (objects, none)

/-- JSON values, as produced by `json.load`.  Object keys are those kept by
`json.load` (duplicates resolved), numbers are modelled as integers (all
numbers the manager writes are integers). -/
inductive JValue where
  | jnull
  | jbool (b : Bool)
  | jnum (n : Int)
  | jstr (s : String)
  | jarr (elems : List JValue)
  | jobj (entries : List (String × JValue))
  deriving Repr

namespace JValue

/-- Python truthiness of a decoded JSON value. -/
def truthy : JValue → Bool
  | jnull => false
  | jbool b => b
  | jnum n => n != 0
  | jstr s => !s.isEmpty
  | jarr l => !l.isEmpty
  | jobj l => !l.isEmpty

end JValue

/-- `imported_data.get(key, {})`. -/
def jGet (entries : List (String × JValue)) (k : String) : JValue :=
  (dictLookup entries k).getD (.jobj [])

def encStrList (l : List String) : JValue :=
  .jarr (l.map .jstr)

def encPair (p : Int × Int) : JValue :=
  .jarr [.jnum p.1, .jnum p.2]

def encTriple (p : Int × Int × Int) : JValue :=
  .jarr [.jnum p.1, .jnum p.2.1, .jnum p.2.2]

def encParent : Option String → JValue
  | none => .jnull
  | some s => .jstr s

def encDict {α : Type} (f : α → JValue) (d : List (String × α)) : JValue :=
  .jobj (d.map (fun e => (e.1, f e.2)))

/-- The `export_data` dictionary built by `export_sets`, in source key order.
Modelled for states without a background image (the image branch reads a host
file and base64-embeds it); `export_sets` then serialises this value to the
chosen file and returns `True`, or catches an I/O error and returns `False`
with the state untouched (`export_sets` performs no state mutation at all). -/
def exportEntries (st : MState) : List (String × JValue) :=
    [("sets", encDict encStrList st.sets),
     ("positions", encDict encPair st.set_positions),
     ("colors", encDict encTriple st.set_colors),
     ("sizes", encDict encPair st.set_sizes),
     ("transparency", encDict (fun n => .jnum n) st.set_transparency),
     ("parents", encDict encParent st.set_parents),
     ("channels", .jobj (st.active_channels.map (fun e => (e.1, .jbool e.2)))),
     ("background_image", .jnull),
     ("parent_groups", encDict encStrList st.parent_groups),
     ("group_positions", encDict encPair st.group_positions),
     ("group_colors", encDict encTriple st.group_colors),
     ("group_sizes", encDict encPair st.group_sizes),
     ("group_transparency", encDict (fun n => .jnum n) st.group_transparency)]

def export_data (st : MState) : JValue :=
  .jobj (exportEntries st)

/-- Decode a JSON list of scene-object names (`for obj in objects` followed by
`cmds.objExists(obj)`): anything but an array of strings makes the host raise
(`TypeError` from iteration or from the scene query). -/
def decStrListAux : List JValue → Option (List String)
  | [] => some []
  | .jstr s :: t => (decStrListAux t).map (fun r => s :: r)
  | _ => none

def decStrList : JValue → Option (List String)
  | .jarr l => decStrListAux l
  | _ => none

/-- Decode an `[x, y]` pair stored back into the typed position / size
registries.  The host stores the raw decoded value; every file the claims
exercise carries well-typed pairs, and the `none` branch stands for the host
errors a malformed value later provokes. -/
def decPair : JValue → Option (Int × Int)
  | .jarr [.jnum x, .jnum y] => some (x, y)
  | _ => none

def decTriple : JValue → Option (Int × Int × Int)
  | .jarr [.jnum x, .jnum y, .jnum z] => some (x, y, z)
  | _ => none

def decInt : JValue → Option Int
  | .jnum n => some n
  | _ => none

/-- One optional per-name field of the import loops:
`if name in section: use section[name] else: use the default`.  A non-object
section makes the host's membership test / indexing raise. -/
def importField {α : Type} (sec : JValue) (name : String)
    (dec : JValue → Option α) (dflt : α) : Option α :=
  match sec with
  | .jobj l =>
      match dictLookup l name with
      | some v => dec v
      | none => some dflt
  | _ => none

/-- The channel-restore loop of `import_sets` (runs before the registries are
cleared): only known channel keys are updated.  A non-boolean stored value is
modelled as a failure (the host would store the raw value; no claim reaches
that corner). -/
def importChannelEntries (ch : List (String × Bool)) :
    List (String × JValue) → Option (List (String × Bool))
  | [] => some ch
  | (k, v) :: t =>
      if dictContains ch k then
        match v with
        | .jbool b => importChannelEntries (dictInsert ch k b) t
        | _ => none
      else importChannelEntries ch t

/-- `if imported_channels: for channel, state in imported_channels.items(): …`.
Calling `.items()` on a non-dict raises, caught by the surrounding handler
while the state is still untouched. -/
def importChannels (st : MState) (v : JValue) : Except MState MState :=
  if v.truthy then
    match v with
    | .jobj entries =>
        match importChannelEntries st.active_channels entries with
        | some ch => .ok { st with active_channels := ch }
        | none => .error st
    | _ => .error st
  else .ok st

/-- The `clear()` calls of `import_sets`: every registry except the channel
flags. -/
def clearRegistries (st : MState) : MState :=
  { st with
      sets := [], set_positions := [], set_colors := [], set_sizes := []
      set_transparency := [], set_parents := [], parent_groups := []
      group_positions := [], group_colors := [], group_sizes := []
      group_transparency := [] }

/-- Body of the per-set import loop: filter the listed objects through
`cmds.objExists`, drop the set if nothing survives, else store it and its
properties (defaults use `len(self.sets)` after the insertion, as the source
does). -/
def importOneSet (scene : String → Bool)
    (positions colors sizes transp : JValue) (st : MState)
    (name : String) (objsVal : JValue) : Except MState MState :=
  match decStrList objsVal with
  | none => .error st
  | some objs =>
      let valid := objs.filter scene
      if valid.isEmpty then .ok st
      else
        let st := { st with sets := dictInsert st.sets name valid }
        match importField positions name decPair
            (20, 20 + Int.ofNat st.sets.length * 30) with
        | none => .error st
        | some pos =>
            let st := { st with set_positions := dictInsert st.set_positions name pos }
            match importField colors name decTriple (70, 70, 70) with
            | none => .error st
            | some col =>
                let st := { st with set_colors := dictInsert st.set_colors name col }
                match importField sizes name decPair (200, 150) with
                | none => .error st
                | some siz =>
                    let st := { st with set_sizes := dictInsert st.set_sizes name siz }
                    match importField transp name decInt 180 with
                    | none => .error st
                    | some tr =>
                        .ok { st with
                          set_transparency := dictInsert st.set_transparency name tr }

def importSetsLoop (scene : String → Bool)
    (positions colors sizes transp : JValue) :
    MState → List (String × JValue) → Except MState MState
  | st, [] => .ok st
  | st, (name, v) :: t =>
      match importOneSet scene positions colors sizes transp st name v with
      | .error s => .error s
      | .ok s => importSetsLoop scene positions colors sizes transp s t

/-- The parent-relationship import loop: an entry is kept iff its set exists
and its parent is `null` or an existing set.  A list or object parent value
makes the host's `parent in self.sets` raise (unhashable); numbers and
booleans are hashable, never equal to a string key, and are silently
dropped. -/
def importParentsLoop :
    MState → List (String × JValue) → Except MState MState
  | st, [] => .ok st
  | st, (name, pv) :: t =>
      if dictContains st.sets name then
        match pv with
        | .jnull =>
            importParentsLoop
              { st with set_parents := dictInsert st.set_parents name none } t
        | .jstr p =>
            if dictContains st.sets p then
              importParentsLoop
                { st with set_parents := dictInsert st.set_parents name (some p) } t
            else importParentsLoop st t
        | .jbool _ => importParentsLoop st t
        | .jnum _ => importParentsLoop st t
        | .jarr _ => .error st
        | .jobj _ => .error st
      else importParentsLoop st t

/-- `[set_name for set_name in sets if set_name in self.sets]`: keep the
listed member names that exist among the just-imported sets.  Non-string
members are hashable scalars (dropped) or unhashable containers (raise); a
non-list value cannot be iterated. -/
def decMemberListAux (sets : List (String × List String)) :
    List JValue → Option (List String)
  | [] => some []
  | .jstr s :: t =>
      if dictContains sets s then (decMemberListAux sets t).map (fun r => s :: r)
      else decMemberListAux sets t
  | .jnull :: t => decMemberListAux sets t
  | .jbool _ :: t => decMemberListAux sets t
  | .jnum _ :: t => decMemberListAux sets t
  | _ => none

def decMemberList (sets : List (String × List String)) :
    JValue → Option (List String)
  | .jarr l => decMemberListAux sets l
  | _ => none

/-- Body of the per-group import loop (defaults again use the length after
insertion). -/
def importOneGroup (gpos gcol gsiz gtr : JValue) (st : MState)
    (name : String) (setsVal : JValue) : Except MState MState :=
  match decMemberList st.sets setsVal with
  | none => .error st
  | some valid =>
      let st := { st with parent_groups := dictInsert st.parent_groups name valid }
      match importField gpos name decPair
          (20, 20 + Int.ofNat st.parent_groups.length * 30) with
      | none => .error st
      | some pos =>
          let st := { st with group_positions := dictInsert st.group_positions name pos }
          match importField gcol name decTriple (100, 100, 60) with
          | none => .error st
          | some col =>
              let st := { st with group_colors := dictInsert st.group_colors name col }
              match importField gsiz name decPair (300, 200) with
              | none => .error st
              | some siz =>
                  let st := { st with group_sizes := dictInsert st.group_sizes name siz }
                  match importField gtr name decInt 180 with
                  | none => .error st
                  | some tr =>
                      .ok { st with
                        group_transparency := dictInsert st.group_transparency name tr }

def importGroupsLoop (gpos gcol gsiz gtr : JValue) :
    MState → List (String × JValue) → Except MState MState
  | st, [] => .ok st
  | st, (name, v) :: t =>
      match importOneGroup gpos gcol gsiz gtr st name v with
      | .error s => .error s
      | .ok s => importGroupsLoop gpos gcol gsiz gtr s t

/-- The body of `import_sets` after the format check, with the state carried
through so that an exception (`.error`) reports the registries exactly as the
surrounding `except` handler leaves them. -/
def importCore (scene : String → Bool) (entries : List (String × JValue))
    (st : MState) : Except MState MState :=
  match importChannels st (jGet entries "channels") with
  | .error s => .error s
  | .ok st =>
      let st := clearRegistries st
      match jGet entries "sets" with
      | .jobj setEntries =>
          (match importSetsLoop scene (jGet entries "positions")
              (jGet entries "colors") (jGet entries "sizes")
              (jGet entries "transparency") st setEntries with
          | .error s => .error s
          | .ok st =>
              match jGet entries "parents" with
              | .jobj parentEntries =>
                  (match importParentsLoop st parentEntries with
                  | .error s => .error s
                  | .ok st =>
                      match jGet entries "parent_groups" with
                      | .jobj groupEntries =>
                          (match importGroupsLoop (jGet entries "group_positions")
                              (jGet entries "group_colors") (jGet entries "group_sizes")
                              (jGet entries "group_transparency") st groupEntries with
                          | .error s => .error s
                          | .ok st =>
                              -- the background-image block only writes a host
                              -- file and the background path; registry state
                              -- is unchanged and inner errors are swallowed
                              .ok st)
                      | _ => .error st)
              | _ => .error st)
      | _ => .error st

/-- `import_sets`.  `input = none` models an unreadable file or a JSON parse
error (the exception is raised before any state is touched); the format check
(`isinstance(..., dict) and "sets" in ...`) returns `False` likewise without
mutation; afterwards any raise inside the repopulation is caught and reported
as `False` with the state as the handler finds it. -/
def import_sets (scene : String → Bool) (input : Option JValue) (st : MState) :
    MState × Bool :=
  match input with
  | none => (st, false)
  | some d =>
      match d with
      | .jobj entries =>
          if dictContains entries "sets" then
            match importCore scene entries st with
            | .ok s => (s, true)
            | .error s => (s, false)
          else (st, false)
      | _ => (st, false)

/-!  Parent-chain reachability.  `ReachesVia sp l a b` records a walk from
`a` to `b` following stored parent pointers, with `l` the list of nodes the
walk steps out of; `Reaches` is its closure, `SelfAncestor a` says `a` is a
proper ancestor of itself, and `Forest` is the spec's forest invariant
("no set is its own ancestor"). -/

inductive ReachesVia (sp : List (String × Option String)) :
    List String → String → String → Prop
  | refl (a : String) : ReachesVia sp [] a a
  | step {a b c : String} {l : List String}
      (h : dictLookup sp a = some (some b)) (hr : ReachesVia sp l b c) :
      ReachesVia sp (a :: l) a c

def Reaches (sp : List (String × Option String)) (a b : String) : Prop :=
  ∃ l, ReachesVia sp l a b

def SelfAncestor (sp : List (String × Option String)) (a : String) : Prop :=
  ∃ b, dictLookup sp a = some (some b) ∧ Reaches sp b a

def Forest (sp : List (String × Option String)) : Prop :=
  ∀ a, ¬ SelfAncestor sp a

/-! Dictionary lemmas. -/

theorem dictLookup_mem {α : Type} {l : List (String × α)} {k : String} {v : α}
    (h : dictLookup l k = some v) : (k, v) ∈ l := by
  induction l with
  | nil => simp [dictLookup] at h
  | cons e t ih =>
      obtain ⟨k', v'⟩ := e
      by_cases hk : k' = k
      · subst hk
        simp [dictLookup] at h
        simp [h]
      · simp [dictLookup, hk] at h
        exact List.mem_cons_of_mem _ (ih h)

theorem mem_dictKeys_of_lookup {α : Type} {l : List (String × α)} {k : String}
    {v : α} (h : dictLookup l k = some v) : k ∈ dictKeys l := by
  have := dictLookup_mem h
  exact List.mem_map_of_mem Prod.fst this

theorem dictContains_iff {α : Type} {l : List (String × α)} {k : String} :
    dictContains l k = true ↔ ∃ v, dictLookup l k = some v := by
  simp [dictContains, Option.isSome_iff_exists]

theorem dictLookup_dictInsert_self {α : Type} (l : List (String × α))
    (k : String) (v : α) : dictLookup (dictInsert l k v) k = some v := by
  induction l with
  | nil => simp [dictInsert, dictLookup]
  | cons e t ih =>
      by_cases hk : e.1 = k
      · simp [dictInsert, hk, dictLookup]
      · simp [dictInsert, hk, dictLookup, ih]

theorem dictLookup_dictInsert_ne {α : Type} (l : List (String × α))
    {k k' : String} (v : α) (h : k' ≠ k) :
    dictLookup (dictInsert l k v) k' = dictLookup l k' := by
  have hk'k : ¬ (k = k') := fun hh => h hh.symm
  induction l with
  | nil => simp [dictInsert, dictLookup, hk'k]
  | cons e t ih =>
      by_cases hk : e.1 = k
      · subst hk
        simp [dictInsert, dictLookup, hk'k]
      · simp [dictInsert, hk, dictLookup, ih]

theorem dictLookup_dictErase_ne {α : Type} (l : List (String × α))
    {k k' : String} (h : k' ≠ k) :
    dictLookup (dictErase l k) k' = dictLookup l k' := by
  induction l with
  | nil => simp [dictErase, dictLookup]
  | cons e t ih =>
      by_cases hk : e.1 = k
      · subst hk
        have : ¬ (e.1 = k') := fun hh => h hh.symm
        simp [dictErase, dictLookup, this]
      · simp [dictErase, hk, dictLookup, ih]

theorem dictLookup_dictErase_self {α : Type} {l : List (String × α)}
    {k : String} (h : (dictKeys l).Nodup) :
    dictLookup (dictErase l k) k = none := by
  induction l with
  | nil => simp [dictErase, dictLookup]
  | cons e t ih =>
      simp only [dictKeys, List.map_cons, List.nodup_cons] at h
      by_cases hk : e.1 = k
      · subst hk
        simp only [dictErase, if_pos rfl]
        cases hl : dictLookup t e.1 with
        | none => exact hl
        | some v => exact absurd (mem_dictKeys_of_lookup hl) h.1
      · simp only [dictErase, if_neg hk, dictLookup, if_neg hk]
        exact ih h.2

theorem dictLookup_map_value {α β : Type} (f : α → β) (l : List (String × α))
    (k : String) :
    dictLookup (l.map (fun e => (e.1, f e.2))) k = (dictLookup l k).map f := by
  induction l with
  | nil => simp [dictLookup]
  | cons e t ih =>
      by_cases hk : e.1 = k
      · simp [dictLookup, hk]
      · simp [dictLookup, hk, ih]

theorem dictInsert_eq_append {α : Type} {l : List (String × α)} {k : String}
    (v : α) (h : dictLookup l k = none) : dictInsert l k v = l ++ [(k, v)] := by
  induction l with
  | nil => simp [dictInsert]
  | cons e t ih =>
      by_cases hk : e.1 = k
      · simp [dictLookup, hk] at h
      · simp only [dictLookup, if_neg hk] at h
        simp [dictInsert, hk, ih h]

theorem dictKeys_length {α : Type} (l : List (String × α)) :
    (dictKeys l).length = l.length := by
  simp [dictKeys]

/-! Reachability lemmas. -/

theorem reachesVia_append {sp : List (String × Option String)}
    {l₁ l₂ : List String} {a b c : String}
    (h₁ : ReachesVia sp l₁ a b) (h₂ : ReachesVia sp l₂ b c) :
    ReachesVia sp (l₁ ++ l₂) a c := by
  induction h₁ with
  | refl => simpa using h₂
  | step h hr ih => exact ReachesVia.step h (ih h₂)

theorem reaches_trans {sp : List (String × Option String)} {a b c : String}
    (h₁ : Reaches sp a b) (h₂ : Reaches sp b c) : Reaches sp a c := by
  obtain ⟨l₁, h₁⟩ := h₁
  obtain ⟨l₂, h₂⟩ := h₂
  exact ⟨l₁ ++ l₂, reachesVia_append h₁ h₂⟩

theorem reachesVia_sources {sp : List (String × Option String)}
    {l : List String} {a b : String} (h : ReachesVia sp l a b) :
    ∀ x ∈ l, x ∈ dictKeys sp := by
  induction h with
  | refl => simp
  | step h _ ih =>
      intro x hx
      rcases List.mem_cons.mp hx with hx | hx
      · subst hx
        exact mem_dictKeys_of_lookup h
      · exact ih x hx

/-- A walk can be restarted from any node it steps out of, using a tail of
the original source list. -/
theorem reachesVia_cut {sp : List (String × Option String)} :
    ∀ {l : List String} {a b x : String}, ReachesVia sp l a b → x ∈ l →
      ∃ l₂, ReachesVia sp l₂ x b ∧ l₂.length ≤ l.length ∧ l₂ ⊆ l := by
  intro l
  induction l with
  | nil => intro a b x _ hx; simp at hx
  | cons y t ih =>
      intro a b x h hx
      cases h with
      | step hEdge hr =>
          rcases List.mem_cons.mp hx with hx | hx
          · subst hx
            exact ⟨x :: t, ReachesVia.step hEdge hr, le_refl _, fun z hz => hz⟩
          · obtain ⟨l₂, h₂, hlen, hsub⟩ := ih hr hx
            exact ⟨l₂, h₂, Nat.le_succ_of_le hlen,
              fun z hz => List.mem_cons_of_mem _ (hsub hz)⟩

/-- Any walk can be shortened to one that never leaves the same node twice. -/
theorem reachesVia_shorten {sp : List (String × Option String)} :
    ∀ (n : Nat) {l : List String} {a b : String}, l.length ≤ n →
      ReachesVia sp l a b →
      ∃ l₂, l₂.Nodup ∧ l₂ ⊆ l ∧ ReachesVia sp l₂ a b := by
  intro n
  induction n with
  | zero =>
      intro l a b hlen h
      have : l = [] := List.eq_nil_of_length_eq_zero (Nat.le_zero.mp hlen)
      subst this
      exact ⟨[], List.nodup_nil, fun z hz => hz, h⟩
  | succ n ih =>
      intro l a b hlen h
      cases h with
      | refl => exact ⟨[], List.nodup_nil, by simp, ReachesVia.refl _⟩
      | @step a q c t hEdge hr =>
          have hlt : t.length ≤ n := Nat.le_of_succ_le_succ hlen
          obtain ⟨t', ht'nd, ht'sub, ht'via⟩ := ih hlt hr
          by_cases ha : a ∈ t'
          · obtain ⟨l₂, h₂, hlen₂, hsub₂⟩ := reachesVia_cut ht'via ha
            have hlen₂' : l₂.length ≤ n :=
              le_trans hlen₂
                (le_trans (List.subperm_of_subset ht'nd ht'sub).length_le hlt)
            obtain ⟨l₃, h₃nd, h₃sub, h₃via⟩ := ih hlen₂' h₂
            exact ⟨l₃, h₃nd, fun z hz =>
              List.mem_cons_of_mem _ (ht'sub (hsub₂ (h₃sub hz))), h₃via⟩
          · exact ⟨a :: t', List.Nodup.cons ha ht'nd,
              List.cons_subset_cons _ ht'sub, ReachesVia.step hEdge ht'via⟩

/-- Soundness of the bounded walk: a `true` answer exhibits a real chain from
the proposed parent to the child. -/
theorem wccrAux_sound {sp : List (String × Option String)} {child : String} :
    ∀ (f : Nat) (oa : Option String), wccrAux sp child f oa = true →
      ∃ a, oa = some a ∧ Reaches sp a child := by
  intro f
  induction f with
  | zero =>
      intro oa h
      cases oa <;> simp [wccrAux] at h
  | succ f ih =>
      intro oa h
      cases oa with
      | none => simp [wccrAux] at h
      | some a =>
          by_cases he : a = ""
          · simp [wccrAux, he] at h
          · by_cases hc : a = child
            · exact ⟨a, rfl, ⟨[], hc ▸ ReachesVia.refl a⟩⟩
            · simp only [wccrAux, if_neg he, if_neg hc] at h
              obtain ⟨b, hb, hreach⟩ := ih _ h
              have hlk : dictLookup sp a = some (some b) := by
                cases hlk' : dictLookup sp a with
                | none => simp [hlk'] at hb
                | some v =>
                    cases v with
                    | none => simp [hlk'] at hb
                    | some w => simp [hlk'] at hb; simp [hlk', hb]
              obtain ⟨l, hvia⟩ := hreach
              exact ⟨a, rfl, ⟨a :: l, ReachesVia.step hlk hvia⟩⟩

/-- Completeness of the bounded walk along a chain of non-empty names. -/
theorem wccrAux_complete {sp : List (String × Option String)}
    (hval : ∀ e ∈ sp, e.2 ≠ some "") :
    ∀ {l : List String} {a child : String}, ReachesVia sp l a child → a ≠ "" →
      ∀ f, l.length < f → wccrAux sp child f (some a) = true := by
  intro l a child h
  induction h with
  | refl =>
      intro ha f hf
      match f, hf with
      | g + 1, _ => simp [wccrAux, ha]
  | @step a b c t hEdge hr ih =>
      intro ha f hf
      match f, hf with
      | g + 1, hf =>
          by_cases hc : a = c
          · subst hc
            simp [wccrAux, ha]
          · have hb : b ≠ "" := by
              intro hb
              exact hval _ (dictLookup_mem hEdge) (by simp [hb])
            have hrec := ih hb g (Nat.lt_of_succ_lt_succ hf)
            simp [wccrAux, ha, hc, hEdge, hrec]

/-- On any state, a `false` cycle check certifies unreachability is NOT
implied; but a reachable child with non-empty names forces a `true` answer
within the modelled fuel. -/
theorem wccr_true_of_reaches {st : MState} {child parent : String}
    (hval : ∀ e ∈ st.set_parents, e.2 ≠ some "")
    (hp : parent ≠ "") (h : Reaches st.set_parents parent child) :
    would_create_circular_reference st child parent = true := by
  obtain ⟨l, hvia⟩ := h
  obtain ⟨l₂, hnd, hsub, hvia₂⟩ := reachesVia_shorten l.length (le_refl _) hvia
  have hsubk : l₂ ⊆ dictKeys st.set_parents := by
    intro x hx
    exact reachesVia_sources hvia₂ x hx
  have hlen : l₂.length ≤ st.set_parents.length := by
    have := (List.subperm_of_subset hnd hsubk).length_le
    simpa [dictKeys_length] using this
  exact wccrAux_complete hval hvia₂ hp _ (Nat.lt_succ_of_le hlen)

theorem wccr_false_of_not_reaches {st : MState} {child parent : String}
    (h : ¬ Reaches st.set_parents parent child) :
    would_create_circular_reference st child parent = false := by
  cases hw : would_create_circular_reference st child parent with
  | false => rfl
  | true =>
      obtain ⟨a, ha, hr⟩ := wccrAux_sound _ _ hw
      cases ha
      exact absurd hr h

/-! Forest preservation machinery. -/

/-- A reachability walk only uses edges, so shrinking the edge relation
preserves unreachability of cycles. -/
theorem reachesVia_mono {sp sp' : List (String × Option String)}
    (hmono : ∀ x y, dictLookup sp' x = some (some y) →
      dictLookup sp x = some (some y)) :
    ∀ {l : List String} {a b : String}, ReachesVia sp' l a b →
      ReachesVia sp l a b := by
  intro l a b h
  induction h with
  | refl => exact ReachesVia.refl _
  | step h hr ih => exact ReachesVia.step (hmono _ _ h) ih

theorem forest_mono {sp sp' : List (String × Option String)}
    (hmono : ∀ x y, dictLookup sp' x = some (some y) →
      dictLookup sp x = some (some y))
    (h : Forest sp) : Forest sp' := by
  intro a ⟨b, hEdge, ⟨l, hvia⟩⟩
  exact h a ⟨b, hmono _ _ hEdge, ⟨l, reachesVia_mono hmono hvia⟩⟩

/-- Decomposition of walks in a graph with one updated edge `c ↦ p`:
either the walk avoids `c` and lives in the old graph, or it passes through
`c` and continues from `p`. -/
theorem reachesVia_insert_decomp {sp : List (String × Option String)}
    {c p : String} (hnp : ¬ Reaches sp p c) :
    ∀ (n : Nat) {l : List String} {x y : String}, l.length ≤ n →
      ReachesVia (dictInsert sp c (some p)) l x y →
      Reaches sp x y ∨ (Reaches sp x c ∧ Reaches sp p y) := by
  intro n
  induction n with
  | zero =>
      intro l x y hlen h
      have : l = [] := List.eq_nil_of_length_eq_zero (Nat.le_zero.mp hlen)
      subst this
      cases h
      exact Or.inl ⟨[], ReachesVia.refl _⟩
  | succ n ih =>
      intro l x y hlen h
      cases h with
      | refl => exact Or.inl ⟨[], ReachesVia.refl _⟩
      | @step x q _ t hEdge hr =>
          have ht : t.length ≤ n := Nat.le_of_succ_le_succ hlen
          by_cases hx : x = c
          · subst hx
            have hq : q = p := by
              have := dictLookup_dictInsert_self sp x (some p)
              rw [this] at hEdge
              simpa using hEdge.symm
            subst hq
            rcases ih ht hr with hold | ⟨hqc, _⟩
            · exact Or.inr ⟨⟨[], ReachesVia.refl _⟩, hold⟩
            · exact absurd hqc hnp
          · have hEdge' : dictLookup sp x = some (some q) := by
              rw [dictLookup_dictInsert_ne sp (some p) hx] at hEdge
              exact hEdge
            rcases ih ht hr with hold | ⟨hqc, hpy⟩
            · obtain ⟨l', hvia⟩ := hold
              exact Or.inl ⟨x :: l', ReachesVia.step hEdge' hvia⟩
            · obtain ⟨l', hvia⟩ := hqc
              exact Or.inr ⟨⟨x :: l', ReachesVia.step hEdge' hvia⟩, hpy⟩

/-- Re-pointing `c` at a node `p` that cannot reach `c` keeps the graph a
forest. -/
theorem forest_insert {sp : List (String × Option String)} {c p : String}
    (hf : Forest sp) (hnp : ¬ Reaches sp p c) :
    Forest (dictInsert sp c (some p)) := by
  intro a ⟨q, hEdge, ⟨l, hvia⟩⟩
  by_cases ha : a = c
  · subst ha
    have hq : q = p := by
      have := dictLookup_dictInsert_self sp a (some p)
      rw [this] at hEdge
      simpa using hEdge.symm
    subst hq
    rcases reachesVia_insert_decomp hnp l.length (le_refl _) hvia with hold | ⟨hqc, _⟩
    · exact hnp hold
    · exact hnp hqc
  · have hEdge' : dictLookup sp a = some (some q) := by
      rw [dictLookup_dictInsert_ne sp (some p) ha] at hEdge
      exact hEdge
    rcases reachesVia_insert_decomp hnp l.length (le_refl _) hvia with hold | ⟨hqc, hpa⟩
    · exact hf a ⟨q, hEdge', hold⟩
    · -- p reaches a, a steps to q, q reaches c: p would reach c
      refine hnp (reaches_trans hpa (reaches_trans ?_ hqc))
      exact ⟨[a], ReachesVia.step hEdge' (ReachesVia.refl _)⟩

/-- Paths transport along a name substitution that maps edges to edges. -/
theorem forest_of_edge_map {sp sp' : List (String × Option String)}
    (φ : String → String)
    (hmap : ∀ x y, dictLookup sp' x = some (some y) →
      dictLookup sp (φ x) = some (some (φ y)))
    (h : Forest sp) : Forest sp' := by
  have htrans : ∀ {l : List String} {a b : String}, ReachesVia sp' l a b →
      Reaches sp (φ a) (φ b) := by
    intro l a b hvia
    induction hvia with
    | refl => exact ⟨[], ReachesVia.refl _⟩
    | step hEdge _ ih =>
        obtain ⟨l', hvia'⟩ := ih
        exact ⟨_ :: l', ReachesVia.step (hmap _ _ hEdge) hvia'⟩
  intro a ⟨q, hEdge, ⟨l, hvia⟩⟩
  exact h (φ a) ⟨φ q, hmap _ _ hEdge, htrans hvia⟩

/-- States whose parent graph has no edges at all (every stored parent is
null) are trivially forests. -/
theorem forest_of_no_edges {sp : List (String × Option String)}
    (h : ∀ e ∈ sp, e.2 = none) : Forest sp := by
  intro a ⟨b, hEdge, _⟩
  have := h _ (dictLookup_mem hEdge)
  simp at this

theorem reaches_eq_of_no_edges {sp : List (String × Option String)}
    (h : ∀ e ∈ sp, e.2 = none) {a b : String} (hr : Reaches sp a b) : a = b := by
  obtain ⟨l, hvia⟩ := hr
  cases hvia with
  | refl => rfl
  | step hEdge _ =>
      have := h _ (dictLookup_mem hEdge)
      simp at this

/-- First-step case analysis on a reachability fact. -/
theorem reaches_cases {sp : List (String × Option String)} {a b : String}
    (h : Reaches sp a b) :
    a = b ∨ ∃ q, dictLookup sp a = some (some q) ∧ Reaches sp q b := by
  obtain ⟨l, hvia⟩ := h
  cases hvia with
  | refl => exact Or.inl rfl
  | step hEdge hr => exact Or.inr ⟨_, hEdge, ⟨_, hr⟩⟩

theorem dictLookup_isSome_of_mem {α : Type} {l : List (String × α)}
    {k : String} {v : α} (h : (k, v) ∈ l) : (dictLookup l k).isSome := by
  induction l with
  | nil => simp at h
  | cons e t ih =>
      rcases List.mem_cons.mp h with h | h
      · subst h
        simp [dictLookup]
      · by_cases hk : e.1 = k
        · simp [dictLookup, hk]
        · simp only [dictLookup, if_neg hk]
          exact ih h

theorem dictLookup_eq_none_of_not_mem_keys {α : Type} {l : List (String × α)}
    {k : String} (h : k ∉ dictKeys l) : dictLookup l k = none := by
  induction l with
  | nil => rfl
  | cons e t ih =>
      simp only [dictKeys, List.map_cons, List.mem_cons, not_or] at h
      have h1 : ¬ (e.1 = k) := fun hh => h.1 hh.symm
      simp only [dictLookup, if_neg h1]
      exact ih (by simpa [dictKeys] using h.2)

theorem not_mem_of_dictLookup_eq_none {α : Type} {l : List (String × α)}
    {k : String} (h : dictLookup l k = none) {v : α} : (k, v) ∉ l := by
  intro hmem
  have := dictLookup_isSome_of_mem hmem
  rw [h] at this
  simp at this

theorem dictKeys_dictInsert_of_none {α : Type} {l : List (String × α)}
    {k : String} (v : α) (h : dictLookup l k = none) :
    dictKeys (dictInsert l k v) = dictKeys l ++ [k] := by
  rw [dictInsert_eq_append v h]
  simp [dictKeys]

theorem mem_of_mem_dictErase {α : Type} {l : List (String × α)} {k : String}
    {e : String × α} (h : e ∈ dictErase l k) : e ∈ l := by
  induction l with
  | nil => simp [dictErase] at h
  | cons e' t ih =>
      by_cases hk : e'.1 = k
      · simp only [dictErase, if_pos hk] at h
        exact List.mem_cons_of_mem _ h
      · simp only [dictErase, if_neg hk] at h
        rcases List.mem_cons.mp h with h | h
        · simp [h]
        · exact List.mem_cons_of_mem _ (ih h)

theorem mem_dictInsert {α : Type} {l : List (String × α)} {k : String} {v : α}
    {e : String × α} (h : e ∈ dictInsert l k v) : e = (k, v) ∨ e ∈ l := by
  induction l with
  | nil => simp [dictInsert] at h; simp [h]
  | cons e' t ih =>
      by_cases hk : e'.1 = k
      · simp only [dictInsert, if_pos hk] at h
        rcases List.mem_cons.mp h with h | h
        · subst hk
          exact Or.inl (by simpa using h)
        · exact Or.inr (List.mem_cons_of_mem _ h)
      · simp only [dictInsert, if_neg hk] at h
        rcases List.mem_cons.mp h with h | h
        · exact Or.inr (by simp [h])
        · rcases ih h with h | h
          · exact Or.inl h
          · exact Or.inr (List.mem_cons_of_mem _ h)

theorem dictContains_map_value {α β : Type} (f : α → β)
    (l : List (String × α)) (k : String) :
    dictContains (l.map (fun e => (e.1, f e.2))) k = dictContains l k := by
  rw [dictContains, dictContains, dictLookup_map_value]
  cases dictLookup l k <;> simp

/-! ## Claim C1

For every pair `(child, parent)` of existing set names where `parent` is
already a descendant of `child` (including `parent = child`), `set_parent`
is claimed to fail with a cycle rejection leaving the state unchanged.  The
claim holds for ordinary names, but an existing set named `""` defeats the
Python `if parent_name and ...` truthiness guards: `set_parent("", "")`
succeeds and mutates the state. -/

/-- C1 counterexample state: a single set whose name is the empty string
(`create_set("")` builds exactly this). -/
def stC1x : MState :=
  { initState with sets := [("", ["obj1"])], set_parents := [("", none)] }

/-- C1 (counterexample): with an existing set named `""`, the pair
`(child, parent) = ("", "")` satisfies the claim's hypothesis
(`parent = child`), yet `set_parent` succeeds and modifies `set_parents`,
contradicting the claimed cycle rejection with unchanged state. -/
theorem C1_counterexample :
    dictContains stC1x.sets "" = true ∧
    Reaches stC1x.set_parents "" "" ∧
    (set_parent stC1x "" (some "")).2 = SetParentResult.success ∧
    (set_parent stC1x "" (some "")).1.set_parents ≠ stC1x.set_parents := by
  refine ⟨by decide, ⟨[], ReachesVia.refl ""⟩, by decide, by decide⟩

/-- C1 (amended): for existing set names in a state with no empty-string set
name and no empty-string stored parent pointer (always true unless a set was
deliberately created with the empty name), if `parent` is already a
descendant of `child` — including `parent = child` — then `set_parent`
returns the cycle-rejection failure and the whole state is unchanged. -/
theorem C1_cycle_rejected (st : MState) (child parent : String)
    (hchild : dictContains st.sets child = true)
    (hparent : dictContains st.sets parent = true)
    (hnoempty : dictContains st.sets "" = false)
    (hval : ∀ e ∈ st.set_parents, e.2 ≠ some "")
    (hreach : Reaches st.set_parents parent child) :
    set_parent st child (some parent) = (st, SetParentResult.cycleRejected) := by
  have hpne : parent ≠ "" := by
    intro h
    rw [h] at hparent
    rw [hparent] at hnoempty
    cases hnoempty
  have hw := wccr_true_of_reaches hval hpne hreach
  simp [set_parent, hchild, hparent, hpne, hw]

/-- C1 witness state: `B` is a child of `A`. -/
def stC1w : MState :=
  { initState with
      sets := [("A", ["o1"]), ("B", ["o2"])]
      set_parents := [("A", none), ("B", some "A")] }

/-- C1 (witness): `set_parent("A", "B")` with `B` a descendant of `A` is
rejected with the state unchanged. -/
theorem C1_cycle_rejected_witness :
    set_parent stC1w "A" (some "B") = (stC1w, SetParentResult.cycleRejected) :=
  C1_cycle_rejected stC1w "A" "B" (by decide) (by decide) (by decide)
    (by decide)
    ⟨["B"], ReachesVia.step (by decide) (ReachesVia.refl "A")⟩

/-! ## Claim C2

The claim asserts success whenever `parent` is not an *ancestor* of `child`.
The code instead rejects whenever `parent` is a *descendant* of `child` (the
cycle walk starts at the proposed parent and looks for the child), so a
parent that is a descendant — but not an ancestor — of the child refutes the
claim.  The corrected precondition is that `parent` is not a descendant of
`child`. -/

/-- C2 counterexample state: `B` is a child of `A` (so `B` is not an
ancestor of `A`). -/
def stC2x : MState :=
  { initState with
      sets := [("A", ["o1"]), ("B", ["o2"])]
      set_parents := [("A", none), ("B", some "A")] }

/-- C2 (counterexample): `B` is not an ancestor of `A` (the parent chain
from `A` is empty), so the claim predicts `set_parent("A", "B")` succeeds;
the code rejects it as a cycle. -/
theorem C2_counterexample :
    dictContains stC2x.sets "A" = true ∧
    dictContains stC2x.sets "B" = true ∧
    ¬ Reaches stC2x.set_parents "A" "B" ∧
    (set_parent stC2x "A" (some "B")).2 = SetParentResult.cycleRejected := by
  refine ⟨by decide, by decide, ?_, by decide⟩
  intro hr
  rcases reaches_cases hr with h | ⟨q, hq, _⟩
  · exact absurd h (by decide)
  · have h0 : dictLookup stC2x.set_parents "A" = some none := by decide
    rw [h0] at hq
    simp at hq

/-- C2 (amended): for existing set names `child` and `parent` in a
forest-shaped state, if `parent` is not a descendant of `child` (the parent
chain from `parent` never meets `child`), `set_parent` succeeds, stores the
pointer, and afterwards the parent chain from `child` reaches `parent`.
The forest hypothesis records that the unbounded source walk terminates,
which the bounded model walk mirrors. -/
theorem C2_set_parent_success (st : MState) (child parent : String)
    (hchild : dictContains st.sets child = true)
    (hparent : dictContains st.sets parent = true)
    (hforest : Forest st.set_parents)
    (hnreach : ¬ Reaches st.set_parents parent child) :
    set_parent st child (some parent) =
      ({ st with set_parents := dictInsert st.set_parents child (some parent) },
       SetParentResult.success) ∧
    Reaches (dictInsert st.set_parents child (some parent)) child parent := by
  have hreach2 : Reaches (dictInsert st.set_parents child (some parent)) child parent :=
    ⟨[child], ReachesVia.step (dictLookup_dictInsert_self _ _ _) (ReachesVia.refl _)⟩
  by_cases hpe : parent = ""
  · subst hpe
    exact ⟨by simp [set_parent, hchild], hreach2⟩
  · have hw := wccr_false_of_not_reaches hnreach
    exact ⟨by simp [set_parent, hchild, hparent, hpe, hw], hreach2⟩

/-- C2 witness state: two unrelated sets. -/
def stC2w : MState :=
  { initState with
      sets := [("A", ["o1"]), ("B", ["o2"])]
      set_parents := [("A", none), ("B", none)] }

/-- C2 (witness): assigning `B` as parent of `A` in a flat state succeeds
and the chain from `A` reaches `B`. -/
theorem C2_set_parent_success_witness :
    (set_parent stC2w "A" (some "B")).2 = SetParentResult.success ∧
    Reaches (set_parent stC2w "A" (some "B")).1.set_parents "A" "B" := by
  have h := C2_set_parent_success stC2w "A" "B" (by decide) (by decide)
    (forest_of_no_edges (by decide))
    (fun hr => absurd (reaches_eq_of_no_edges (by decide) hr) (by decide))
  refine ⟨by rw [h.1], ?_⟩
  rw [h.1]
  exact h.2

/-! ## Claim C9

Deleting a group keeps its member sets; deleting a set orphans its children
rather than deleting them.  Both hold.  But the claim (and the spec, and the
source's own `# Remove from any parent groups` comment plus the
`remove_set_from_group(name)` call) also says the deleted set is removed from
its parent group — the call happens after `del self.sets[name]`, so the
`set_name not in self.sets` guard inside `remove_set_from_group` fires and the
group membership lists are never touched: the deleted name stays in its group
as a dangling reference.  This is a code bug: the code contradicts its own
stated intent. -/

/-- C9 failing-input state: set `A` with child `B`, `A` a member of group
`G`. -/
def stC9 : MState :=
  { initState with
      sets := [("A", ["o1"]), ("B", ["o2"])]
      set_positions := [("A", (20, 20)), ("B", (40, 40))]
      set_colors := [("A", (70, 70, 70)), ("B", (70, 70, 70))]
      set_sizes := [("A", (200, 150)), ("B", (200, 150))]
      set_transparency := [("A", 180), ("B", 180)]
      set_parents := [("A", none), ("B", some "A")]
      parent_groups := [("G", ["A"])]
      group_positions := [("G", (20, 20))]
      group_colors := [("G", (100, 100, 60))]
      group_sizes := [("G", (300, 200))]
      group_transparency := [("G", 180)] }

/-- C9: evaluating the code at the failing input.  `delete_parent_group`
keeps the member sets intact, and `delete_set` orphans the child (parent
pointer nulled, set entries removed) — but the deleted set `A` is still
listed in group `G` afterwards, where the claim says it is removed. -/
theorem C9_delete_behaviour :
    (delete_parent_group stC9 "G").2 = true ∧
    (delete_parent_group stC9 "G").1.sets = stC9.sets ∧
    (delete_parent_group stC9 "G").1.set_parents = stC9.set_parents ∧
    (delete_parent_group stC9 "G").1.parent_groups = [] ∧
    (delete_set stC9 "A").2 = true ∧
    dictLookup (delete_set stC9 "A").1.sets "B" = some ["o2"] ∧
    dictLookup (delete_set stC9 "A").1.set_parents "B" = some none ∧
    dictContains (delete_set stC9 "A").1.sets "A" = false ∧
    dictLookup (delete_set stC9 "A").1.parent_groups "G" = some ["A"] := by
  decide

/-! ## Claim C10

Rename operations do reject a taken target name with a name-collision
failure and unchanged state.  Create operations do not: `create_set` and
`create_parent_group` silently uniquify a taken requested name by appending
`_1`, `_2`, … and succeed, so the claim's quantification over "every create
or rename operation" fails on the create side. -/

/-- C10 counterexample state: one existing set named `A`. -/
def stC10x : MState :=
  { initState with
      sets := [("A", ["o1"])]
      set_positions := [("A", (20, 20))]
      set_colors := [("A", (70, 70, 70))]
      set_sizes := [("A", (200, 150))]
      set_transparency := [("A", 180)]
      set_parents := [("A", none)] }

/-- C10 (counterexample): creating a set with the already-taken name `A`
does not report a failure — it succeeds under the uniquified name `A_1`,
leaving the original entry in place. -/
theorem C10_counterexample :
    dictContains stC10x.sets "A" = true ∧
    (create_set stC10x ["o2"] "A").2 = some "A_1" ∧
    dictLookup (create_set stC10x ["o2"] "A").1.sets "A" = some ["o1"] ∧
    dictLookup (create_set stC10x ["o2"] "A").1.sets "A_1" = some ["o2"] := by
  decide

theorem freshNameAux_fresh {α : Type} {taken : List (String × α)} {base : String} :
    ∀ {fuel : Nat} {cand : String} {counter : Nat} {r : String},
      freshNameAux taken base fuel cand counter = some r →
      dictContains taken r = false := by
  intro fuel
  induction fuel with
  | zero => intro cand counter r h; simp [freshNameAux] at h
  | succ fuel ih =>
      intro cand counter r h
      by_cases hc : dictContains taken cand
      · rw [freshNameAux, if_pos hc] at h
        exact ih h
      · rw [freshNameAux, if_neg hc] at h
        cases h
        simpa using hc

/-- C10 (amended): renaming a set or group to a taken name fails with the
name-collision failure and unchanged state, while the create operations
never collide, overwrite, or fail on a taken name: they succeed under a
fresh (not yet taken) name whose entry holds exactly the new content. -/
theorem C10_name_collision (st : MState) (old new gold gnew base : String)
    (sel : List String)
    (hold : dictContains st.sets old = true)
    (hcoll : dictContains st.sets new = true)
    (hgold : dictContains st.parent_groups gold = true)
    (hgcoll : dictContains st.parent_groups gnew = true) :
    rename_set st old new = (st, false) ∧
    rename_parent_group st gold gnew = (st, false) ∧
    (∀ st' r, create_set st sel base = (st', some r) →
        dictContains st.sets r = false ∧ dictLookup st'.sets r = some sel) ∧
    (∀ st' r, create_parent_group st base = (st', some r) →
        dictContains st.parent_groups r = false ∧
        dictLookup st'.parent_groups r = some []) := by
  refine ⟨by simp [rename_set, hold, hcoll],
          by simp [rename_parent_group, hgold, hgcoll], ?_, ?_⟩
  · intro st' r h
    cases hsel : sel.isEmpty
    · cases hf : freshName st.sets base with
      | none => simp [create_set, hsel, hf] at h
      | some n =>
          simp only [create_set, hsel, hf, Bool.false_eq_true, if_false,
            Prod.mk.injEq] at h
          obtain ⟨hst, hr⟩ := h
          have hrn : n = r := by simpa using hr
          subst hrn
          rw [freshName] at hf
          refine ⟨freshNameAux_fresh hf, ?_⟩
          rw [← hst]
          exact dictLookup_dictInsert_self _ _ _
    · simp [create_set, hsel] at h
  · intro st' r h
    cases hf : freshName st.parent_groups base with
    | none => simp [create_parent_group, hf] at h
    | some n =>
        simp only [create_parent_group, hf, Prod.mk.injEq] at h
        obtain ⟨hst, hr⟩ := h
        have hrn : n = r := by simpa using hr
        subst hrn
        rw [freshName] at hf
        refine ⟨freshNameAux_fresh hf, ?_⟩
        rw [← hst]
        exact dictLookup_dictInsert_self _ _ _

/-- C10 witness state: sets `A`, `B` and groups `GA`, `GB` all exist. -/
def stC10w : MState :=
  { initState with
      sets := [("A", ["o1"]), ("B", ["o2"])]
      set_positions := [("A", (20, 20)), ("B", (40, 40))]
      set_colors := [("A", (70, 70, 70)), ("B", (70, 70, 70))]
      set_sizes := [("A", (200, 150)), ("B", (200, 150))]
      set_transparency := [("A", 180), ("B", 180)]
      set_parents := [("A", none), ("B", none)]
      parent_groups := [("GA", ["A"]), ("GB", ["B"])]
      group_positions := [("GA", (20, 20)), ("GB", (40, 40))]
      group_colors := [("GA", (100, 100, 60)), ("GB", (100, 100, 60))]
      group_sizes := [("GA", (300, 200)), ("GB", (300, 200))]
      group_transparency := [("GA", 180), ("GB", 180)] }

/-- C10 (witness): concrete instantiation of the amended theorem on a state
with a set `A` in group `GA`, renaming onto the taken names and creating
fresh entries. -/
theorem C10_name_collision_witness :
    rename_set stC10w "A" "B" = (stC10w, false) ∧
    rename_parent_group stC10w "GA" "GB" = (stC10w, false) ∧
    dictContains stC10w.sets "B_1" = false := by
  have h := C10_name_collision stC10w "A" "B" "GA" "GB" "B" ["o9"]
    (by decide) (by decide) (by decide) (by decide)
  refine ⟨h.1, h.2.1, ?_⟩
  have h3 := h.2.2.1 (create_set stC10w ["o9"] "B").1 "B_1" (by decide)
  exact h3.1

/-! ## Claim C7

The flag-driven selection behaviour (all-on / all-off selects whole objects;
otherwise the existing attribute paths of the enabled suffixes are selected;
empty result falls back to the already-selected whole objects) matches the
code, except for two points of the claim: the feedback message counts
`len(objects)` — every valid object passed in, not only those contributing a
channel — so the `tx`-only example reports "1 channels on 2 objects", not
"1 object"; and the empty-result fallback emits no diagnostic at all (the
`if selected_attrs:` guard simply skips both the select and the message). -/

theorem mem_selectedChannelAttrs (ch : List (String × Bool))
    (ae : String → Bool) (objects : List String) (a : String) :
    a ∈ selectedChannelAttrs ch ae objects ↔
      ∃ o ∈ objects, ∃ c ∈ activeComponents ch,
        a = o ++ c ∧ ae (o ++ c) = true := by
  simp only [selectedChannelAttrs, List.mem_flatten, List.mem_map]
  constructor
  · rintro ⟨l, ⟨o, ho, rfl⟩, hal⟩
    rw [List.mem_filterMap] at hal
    obtain ⟨c, hc, hg⟩ := hal
    by_cases hex : ae (o ++ c) = true
    · rw [if_pos hex] at hg
      obtain rfl := Option.some.inj hg
      exact ⟨o, ho, c, hc, rfl, hex⟩
    · rw [if_neg hex] at hg
      cases hg
  · rintro ⟨o, ho, c, hc, rfl, hex⟩
    exact ⟨_, ⟨o, ho, rfl⟩, List.mem_filterMap.mpr ⟨c, hc, by rw [if_pos hex]⟩⟩

/-- C7 counterexample data: only `tx` enabled, only `A.tx` exists. -/
def chTxOnly : List (String × Bool) :=
  [("tx", true), ("ty", false), ("tz", false),
   ("rx", false), ("ry", false), ("rz", false)]

/-- C7 (counterexample): in the claim's own scenario the selection is
exactly `["A.tx"]`, but the feedback payload is `(1, 2)` — one channel on
TWO objects (`len(objects)`), not the claimed one object. -/
theorem C7_counterexample :
    select_objects_with_channel_filtering chTxOnly
        (fun a => a == "A.tx") ["A", "B"] = some (["A.tx"], some (1, 2)) ∧
    select_objects_with_channel_filtering chTxOnly
        (fun a => a == "A.tx") ["A", "B"] ≠ some (["A.tx"], some (1, 1)) := by
  constructor
  · decide
  · decide

/-- C7 (amended): with all six flags on, or all off, the whole objects are
selected with no message.  Otherwise the selection is exactly the existing
attribute paths of the cross product of objects and enabled suffixes; when
none exists the already-selected whole objects remain with no diagnostic,
and when some exist the feedback reports the number of attribute paths and
the number of (all) valid objects passed in — in the `tx`-only example,
`1` channel on `2` objects. -/
theorem C7_channel_filtering (ch : List (String × Bool))
    (attrExists : String → Bool) (objects : List String)
    (hne : objects ≠ []) :
    (allChannels ch = true ∨ anyChannels ch = false →
      select_objects_with_channel_filtering ch attrExists objects =
        some (objects, none)) ∧
    (allChannels ch = false → anyChannels ch = true →
      (∀ a, a ∈ selectedChannelAttrs ch attrExists objects ↔
          ∃ o ∈ objects, ∃ c ∈ activeComponents ch,
            a = o ++ c ∧ attrExists (o ++ c) = true) ∧
      (selectedChannelAttrs ch attrExists objects = [] →
        select_objects_with_channel_filtering ch attrExists objects =
          some (objects, none)) ∧
      (selectedChannelAttrs ch attrExists objects ≠ [] →
        select_objects_with_channel_filtering ch attrExists objects =
          some (selectedChannelAttrs ch attrExists objects,
            some ((selectedChannelAttrs ch attrExists objects).length,
              objects.length)))) ∧
    (ch = chTxOnly → ∀ A B, objects = [A, B] →
      attrExists (A ++ ".tx") = true → attrExists (B ++ ".tx") = false →
      select_objects_with_channel_filtering ch attrExists objects =
        some ([A ++ ".tx"], some (1, 2))) := by
  have h0 : objects.isEmpty = false := by
    cases objects with
    | nil => exact absurd rfl hne
    | cons x t => rfl
  refine ⟨?_, ?_, ?_⟩
  · intro h
    have hcond : (allChannels ch || !anyChannels ch) = true := by
      rcases h with h | h <;> simp [h]
    simp [select_objects_with_channel_filtering, h0, hcond]
  · intro hall hany
    have hcond : (allChannels ch || !anyChannels ch) = false := by
      simp [hall, hany]
    refine ⟨mem_selectedChannelAttrs ch attrExists objects, ?_, ?_⟩
    · intro hempty
      simp [select_objects_with_channel_filtering, h0, hcond, hempty]
    · intro hnempty
      have : (selectedChannelAttrs ch attrExists objects).isEmpty = false := by
        cases hl : selectedChannelAttrs ch attrExists objects with
        | nil => exact absurd hl hnempty
        | cons x t => rfl
      simp [select_objects_with_channel_filtering, h0, hcond, this]
  · rintro rfl A B rfl hA hB
    have hcond : (allChannels chTxOnly || !anyChannels chTxOnly) = false := by
      decide
    have hattrs : selectedChannelAttrs chTxOnly attrExists [A, B] = [A ++ ".tx"] := by
      simp [selectedChannelAttrs, activeComponents, chanOn, dictLookup, hA, hB]
    simp [select_objects_with_channel_filtering, hcond, hattrs]

/-- C7 (witness): with every flag on, a singleton object list is selected
whole with no message. -/
theorem C7_channel_filtering_witness :
    select_objects_with_channel_filtering initState.active_channels
      (fun _ => false) ["X"] = some (["X"], none) :=
  (C7_channel_filtering initState.active_channels (fun _ => false) ["X"]
    (by simp)).1 (Or.inl (by decide))

/-! ## Claim C8

Import failures caught *before* any mutation — an unreadable file, a JSON
parse error, or the explicit format check (not a dict, or no `"sets"` key) —
do leave the prior state intact.  But the format check does not verify that
the sections are dictionaries: a file such as `{"sets": []}` passes it, the
registries are cleared, and only then does `imported_sets.items()` raise;
the exception handler reports failure with the registries already wiped.
So a failing `import_sets` does not always leave the state unmodified. -/

/-- C8 counterexample state: one set exists before the import. -/
def stC8x : MState :=
  { initState with
      sets := [("A", ["o1"])]
      set_positions := [("A", (20, 20))]
      set_colors := [("A", (70, 70, 70))]
      set_sizes := [("A", (200, 150))]
      set_transparency := [("A", 180)]
      set_parents := [("A", none)] }

/-- C8 (counterexample): importing the file `{"sets": []}` passes the format
check (the key is present), clears every registry, then fails on
`imported_sets.items()` — the call reports failure while the previously
stored set registry has been wiped. -/
theorem C8_counterexample :
    (import_sets (fun _ => true) (some (JValue.jobj [("sets", JValue.jarr [])]))
        stC8x).2 = false ∧
    (import_sets (fun _ => true) (some (JValue.jobj [("sets", JValue.jarr [])]))
        stC8x).1.sets = [] ∧
    stC8x.sets ≠ [] := by
  refine ⟨by decide, by decide, by decide⟩

/-- C8 (amended): failures raised before `import_sets` mutates anything —
a missing/unreadable/unparsable file, a non-dict top level, or a missing
`"sets"` key — return the failure indicator with the entire prior in-memory
state (set registries, group registries, channel flags) intact.  Failures
raised later, while repopulating from malformed section values, report
failure but can leave the registries cleared or partially repopulated. -/
theorem C8_import_failure_state_intact (scene : String → Bool) (st : MState)
    (d : JValue)
    (hbad : ∀ entries, d = JValue.jobj entries →
      dictContains entries "sets" = false) :
    import_sets scene none st = (st, false) ∧
    import_sets scene (some d) st = (st, false) := by
  refine ⟨rfl, ?_⟩
  cases d with
  | jobj entries =>
      have := hbad entries rfl
      simp [import_sets, this]
  | jnull => rfl
  | jbool b => rfl
  | jnum n => rfl
  | jstr s => rfl
  | jarr l => rfl

/-- C8 (witness): importing a non-dict JSON document (`3`) fails and leaves
a one-set state untouched. -/
theorem C8_import_failure_state_intact_witness :
    import_sets (fun _ => true) none stC8x = (stC8x, false) ∧
    import_sets (fun _ => true) (some (JValue.jnum 3)) stC8x = (stC8x, false) :=
  C8_import_failure_state_intact (fun _ => true) stC8x (JValue.jnum 3)
    (fun entries h => by cases h)

/-! ## Claim C6

`add_set_to_group` does remove the set from every other group before adding
it, and two adds in sequence leave the set only in the second group.  But the
invariant "each set is a member of at most one parent group in every
reachable state" is not preserved by `import_sets`: the per-group member
filter `[s for s in sets if s in self.sets]` checks only existence, so a
file listing one set under two groups imports it into both. -/

/-- Total number of occurrences of `s` across all group member lists. -/
def groupMemberCount (pg : List (String × List String)) (s : String) : Nat :=
  (pg.map (fun e => e.2.count s)).sum

/-- The claimed invariant: a set occurs in at most one group (and at most
once there). -/
def MemberOfAtMostOneGroup (pg : List (String × List String)) : Prop :=
  ∀ s, groupMemberCount pg s ≤ 1

theorem count_le_groupMemberCount {pg : List (String × List String)}
    {k : String} {w : List String} (h : (k, w) ∈ pg) (s : String) :
    w.count s ≤ groupMemberCount pg s := by
  induction pg with
  | nil => simp at h
  | cons e t ih =>
      simp only [groupMemberCount, List.map_cons, List.sum_cons]
      rcases List.mem_cons.mp h with h | h
      · rw [← h]
        exact Nat.le_add_right _ _
      · have ht := ih h
        simp only [groupMemberCount] at ht
        omega

theorem groupMemberCount_eq_zero {pg : List (String × List String)}
    {s : String} (h : ∀ e ∈ pg, e.2.count s = 0) :
    groupMemberCount pg s = 0 := by
  induction pg with
  | nil => rfl
  | cons e t ih =>
      have ht := ih (fun x hx => h x (List.mem_cons_of_mem _ hx))
      simp only [groupMemberCount, List.map_cons, List.sum_cons] at ht ⊢
      simp [h e (by simp), ht]

theorem groupMemberCount_map_erase_ne (pg : List (String × List String))
    {x s : String} (hxs : x ≠ s) :
    groupMemberCount (pg.map (fun e => (e.1, e.2.erase s))) x =
      groupMemberCount pg x := by
  induction pg with
  | nil => rfl
  | cons e t ih =>
      simp only [groupMemberCount, List.map_cons, List.sum_cons] at *
      rw [List.count_erase_of_ne hxs, ih]

theorem groupMemberCount_dictInsert_le {l : List (String × List String)}
    {x : String} (k : String) (v : List String)
    (hz : ∀ e ∈ l, e.2.count x = 0) (hv : v.count x ≤ 1) :
    groupMemberCount (dictInsert l k v) x ≤ 1 := by
  induction l with
  | nil => simpa [dictInsert, groupMemberCount]
  | cons e t ih =>
      by_cases hk : e.1 = k
      · simp only [dictInsert, if_pos hk, groupMemberCount, List.map_cons,
          List.sum_cons]
        have : groupMemberCount t x = 0 :=
          groupMemberCount_eq_zero (fun e' he' => hz e' (List.mem_cons_of_mem _ he'))
        simp only [groupMemberCount] at this
        omega
      · simp only [dictInsert, if_neg hk, groupMemberCount, List.map_cons,
          List.sum_cons]
        have h0 := hz e (by simp)
        have ht := ih (fun e' he' => hz e' (List.mem_cons_of_mem _ he'))
        simp only [groupMemberCount] at ht
        omega

theorem groupMemberCount_dictInsert_eq {l : List (String × List String)}
    {x k : String} {v w : List String} (hlk : dictLookup l k = some w)
    (hcount : v.count x = w.count x) :
    groupMemberCount (dictInsert l k v) x = groupMemberCount l x := by
  induction l with
  | nil => simp [dictLookup] at hlk
  | cons e t ih =>
      by_cases hk : e.1 = k
      · simp only [dictLookup, if_pos hk] at hlk
        obtain rfl := Option.some.inj hlk
        simp only [dictInsert, if_pos hk, groupMemberCount, List.map_cons,
          List.sum_cons, hcount]
      · simp only [dictLookup, if_neg hk] at hlk
        simp only [dictInsert, if_neg hk, groupMemberCount, List.map_cons,
          List.sum_cons]
        have := ih hlk
        simp only [groupMemberCount] at this
        omega

theorem dictContains_eq_keys_mem {α : Type} {l : List (String × α)}
    {k : String} : dictContains l k = true ↔ k ∈ dictKeys l := by
  constructor
  · intro h
    obtain ⟨v, hv⟩ := dictContains_iff.mp h
    exact mem_dictKeys_of_lookup hv
  · intro h
    obtain ⟨e, he, hfst⟩ := List.mem_map.mp h
    have hmem : ((k, e.2) : String × α) ∈ l := by
      obtain ⟨a, b⟩ := e
      cases hfst
      exact he
    have := dictLookup_isSome_of_mem hmem
    simpa [dictContains] using this

theorem dictKeys_dictInsert_of_contains {α : Type} {l : List (String × α)}
    {k : String} (v : α) (h : dictContains l k = true) :
    dictKeys (dictInsert l k v) = dictKeys l := by
  induction l with
  | nil => simp [dictContains, dictLookup] at h
  | cons e t ih =>
      by_cases hk : e.1 = k
      · simp [dictInsert, if_pos hk, dictKeys]
      · simp only [dictContains, dictLookup, if_neg hk] at h
        have ht := ih h
        simp only [dictKeys, List.map_cons] at ht ⊢
        simp only [dictInsert, if_neg hk, List.map_cons]
        rw [ht]

theorem dictKeys_map_value {α β : Type} (f : α → β) (l : List (String × α)) :
    dictKeys (l.map (fun e => (e.1, f e.2))) = dictKeys l := by
  simp [dictKeys, List.map_map, Function.comp]

/-- Shape of a successful `add_set_to_group`: remove `s` everywhere, then
append it to the target group's list. -/
theorem add_set_to_group_success_eq (st : MState) (s g : String)
    (w0 : List String)
    (hs : dictContains st.sets s = true)
    (hw0 : dictLookup st.parent_groups g = some w0)
    (hnotmem : s ∉ w0.erase s) :
    add_set_to_group st s g =
      ({ st with parent_groups := dictInsert (st.parent_groups.map (fun e => (e.1, e.2.erase s))) g (w0.erase s ++ [s]) }, true) := by
  have hg : dictContains st.parent_groups g = true := by
    simp [dictContains, hw0]
  have hpgE : dictLookup (st.parent_groups.map (fun e => (e.1, e.2.erase s))) g =
      some (w0.erase s) := by
    have h1 : dictLookup (st.parent_groups.map (fun e => (e.1, e.2.erase s))) g =
        (dictLookup st.parent_groups g).map (fun y => y.erase s) :=
      dictLookup_map_value (fun y => y.erase s) st.parent_groups g
    rw [h1, hw0]
    rfl
  simp only [add_set_to_group, hs, hg, Bool.not_true, Bool.false_eq_true,
    if_false, hpgE, Option.getD_some]
  rw [if_neg hnotmem]

/-- The full effect of a successful `add_set_to_group` on states where `s`
occurs at most once in each member list. -/
theorem add_set_to_group_spec (st : MState) (s g : String)
    (hs : dictContains st.sets s = true)
    (hg : dictContains st.parent_groups g = true)
    (hdup : ∀ e ∈ st.parent_groups, e.2.count s ≤ 1) :
    (add_set_to_group st s g).2 = true ∧
    (∃ l, dictLookup (add_set_to_group st s g).1.parent_groups g = some l ∧
      s ∈ l ∧ l.count s = 1) ∧
    (∀ e ∈ (add_set_to_group st s g).1.parent_groups, s ∈ e.2 → e.1 = g) ∧
    (∀ e ∈ (add_set_to_group st s g).1.parent_groups, e.2.count s ≤ 1) ∧
    (add_set_to_group st s g).1.sets = st.sets ∧
    dictKeys (add_set_to_group st s g).1.parent_groups =
      dictKeys st.parent_groups := by
  obtain ⟨w0, hw0⟩ := dictContains_iff.mp hg
  have hpgE : dictLookup (st.parent_groups.map (fun e => (e.1, e.2.erase s))) g =
      some (w0.erase s) := by
    have h1 : dictLookup (st.parent_groups.map (fun e => (e.1, e.2.erase s))) g =
        (dictLookup st.parent_groups g).map (fun y => y.erase s) :=
      dictLookup_map_value (fun y => y.erase s) st.parent_groups g
    rw [h1, hw0]
    rfl
  have hw0c : w0.count s ≤ 1 := hdup _ (dictLookup_mem hw0)
  have hcur0 : (w0.erase s).count s = 0 := by
    rw [List.count_erase_self]
    omega
  have hnotmem : s ∉ w0.erase s := by
    intro hmem
    have := List.count_pos_iff.mpr hmem
    omega
  have hres := add_set_to_group_success_eq st s g w0 hs hw0 hnotmem
  have hEz : ∀ e ∈ st.parent_groups.map (fun e => (e.1, e.2.erase s)),
      e.2.count s = 0 := by
    rintro e he
    obtain ⟨e', he', rfl⟩ := List.mem_map.mp he
    have := hdup e' he'
    simp only
    rw [List.count_erase_self]
    omega
  have hvc : (w0.erase s ++ [s]).count s = 1 := by
    rw [List.count_append, hcur0]
    simp
  rw [hres]
  refine ⟨rfl, ?_, ?_, ?_, rfl, ?_⟩
  · exact ⟨w0.erase s ++ [s], dictLookup_dictInsert_self _ _ _, by simp, hvc⟩
  · intro e he hmem
    rcases mem_dictInsert he with he | he
    · rw [he]
    · have h1 := hEz e he
      have h2 := List.count_pos_iff.mpr hmem
      omega
  · intro e he
    rcases mem_dictInsert he with he | he
    · rw [he]
      simpa using hvc.le
    · rw [hEz e he]
      omega
  · rw [dictKeys_dictInsert_of_contains]
    · exact dictKeys_map_value (fun y => y.erase s) st.parent_groups
    · rw [dictContains, hpgE]
      rfl

/-- `add_set_to_group` preserves the at-most-one-group invariant. -/
theorem memberOfAtMostOneGroup_add (st : MState) (s g : String)
    (h : MemberOfAtMostOneGroup st.parent_groups) :
    MemberOfAtMostOneGroup (add_set_to_group st s g).1.parent_groups := by
  cases hs : dictContains st.sets s with
  | false =>
      simp only [add_set_to_group, hs, Bool.not_false, if_true]
      exact h
  | true =>
      cases hg : dictContains st.parent_groups g with
      | false =>
          simp only [add_set_to_group, hs, hg, Bool.not_true, Bool.not_false,
            Bool.false_eq_true, if_false, if_true]
          exact h
      | true =>
          obtain ⟨w0, hw0⟩ := dictContains_iff.mp hg
          have hw0c : w0.count s ≤ 1 :=
            le_trans (count_le_groupMemberCount (dictLookup_mem hw0) s) (h s)
          have hcur0 : (w0.erase s).count s = 0 := by
            rw [List.count_erase_self]
            omega
          have hnotmem : s ∉ w0.erase s := by
            intro hmem
            have := List.count_pos_iff.mpr hmem
            omega
          rw [add_set_to_group_success_eq st s g w0 hs hw0 hnotmem]
          intro x
          have hpgE : dictLookup (st.parent_groups.map (fun e => (e.1, e.2.erase s))) g =
              some (w0.erase s) := by
            have h1 : dictLookup (st.parent_groups.map (fun e => (e.1, e.2.erase s))) g =
                (dictLookup st.parent_groups g).map (fun y => y.erase s) :=
              dictLookup_map_value (fun y => y.erase s) st.parent_groups g
            rw [h1, hw0]
            rfl
          by_cases hx : x = s
          · subst hx
            apply groupMemberCount_dictInsert_le
            · rintro e he
              obtain ⟨e', he', rfl⟩ := List.mem_map.mp he
              have h1 : e'.2.count x ≤ 1 :=
                le_trans (count_le_groupMemberCount (by exact he') x) (h x)
              simp only
              rw [List.count_erase_self]
              omega
            · rw [List.count_append, hcur0]
              simp
          · have hcx : (w0.erase s ++ [s]).count x = (w0.erase s).count x := by
              rw [List.count_append]
              simp [List.count_singleton, hx]
            rw [groupMemberCount_dictInsert_eq hpgE hcx,
              groupMemberCount_map_erase_ne _ hx]
            exact h x

/-! The C6 claim theorems. -/

/-- C6 (amended): a set belongs to at most one group — and appears at most
once there — in every state reachable without importing a file that lists a
set under several groups: `add_set_to_group` preserves the invariant, and
adding a set to two groups in sequence leaves it a member of exactly the
second group.  `import_sets` does not enforce the invariant (see the
counterexample). -/
theorem C6_single_group_membership (st : MState) (s g g1 g2 : String)
    (hs : dictContains st.sets s = true)
    (hg1 : dictContains st.parent_groups g1 = true)
    (hg2 : dictContains st.parent_groups g2 = true)
    (hdup : ∀ e ∈ st.parent_groups, e.2.count s ≤ 1) :
    (MemberOfAtMostOneGroup st.parent_groups →
      MemberOfAtMostOneGroup (add_set_to_group st s g).1.parent_groups) ∧
    (∃ l, dictLookup ((add_set_to_group (add_set_to_group st s g1).1 s
        g2).1).parent_groups g2 = some l ∧ s ∈ l) ∧
    (∀ e ∈ ((add_set_to_group (add_set_to_group st s g1).1 s
        g2).1).parent_groups, s ∈ e.2 → e.1 = g2) := by
  obtain ⟨_, _, _, hdup1, hsets1, hkeys1⟩ :=
    add_set_to_group_spec st s g1 hs hg1 hdup
  have hs1 : dictContains (add_set_to_group st s g1).1.sets s = true := by
    rw [hsets1]
    exact hs
  have hg2' : dictContains (add_set_to_group st s g1).1.parent_groups g2 = true := by
    rw [dictContains_eq_keys_mem, hkeys1]
    exact dictContains_eq_keys_mem.mp hg2
  obtain ⟨_, ⟨l, hl, hlm, _⟩, honly, _, _, _⟩ :=
    add_set_to_group_spec (add_set_to_group st s g1).1 s g2 hs1 hg2' hdup1
  exact ⟨fun h => memberOfAtMostOneGroup_add st s g h, ⟨l, hl, hlm⟩, honly⟩

/-- C6 import counterexample data: one set `A`, listed under both `G1` and
`G2`. -/
def dataC6 : JValue :=
  JValue.jobj
    [("sets", JValue.jobj [("A", JValue.jarr [JValue.jstr "o"])]),
     ("parent_groups", JValue.jobj
       [("G1", JValue.jarr [JValue.jstr "A"]),
        ("G2", JValue.jarr [JValue.jstr "A"])])]

/-- C6 (counterexample): importing a file that lists set `A` under two
groups succeeds and leaves `A` a member of both `G1` and `G2`, violating
the claimed invariant in a reachable state. -/
theorem C6_counterexample :
    (import_sets (fun _ => true) (some dataC6) initState).2 = true ∧
    dictLookup (import_sets (fun _ => true) (some dataC6)
        initState).1.parent_groups "G1" = some ["A"] ∧
    dictLookup (import_sets (fun _ => true) (some dataC6)
        initState).1.parent_groups "G2" = some ["A"] ∧
    ¬ MemberOfAtMostOneGroup (import_sets (fun _ => true) (some dataC6)
        initState).1.parent_groups := by
  refine ⟨by decide, by decide, by decide, ?_⟩
  intro hm
  have h1 := hm "A"
  have h2 : groupMemberCount (import_sets (fun _ => true) (some dataC6)
      initState).1.parent_groups "A" = 2 := by decide
  omega

/-- C6 witness state: set `A` and two empty groups. -/
def stC6w : MState :=
  { initState with
      sets := [("A", ["o1"])]
      set_positions := [("A", (20, 20))]
      set_colors := [("A", (70, 70, 70))]
      set_sizes := [("A", (200, 150))]
      set_transparency := [("A", 180)]
      set_parents := [("A", none)]
      parent_groups := [("G1", []), ("G2", [])]
      group_positions := [("G1", (20, 20)), ("G2", (40, 40))]
      group_colors := [("G1", (100, 100, 60)), ("G2", (100, 100, 60))]
      group_sizes := [("G1", (300, 200)), ("G2", (300, 200))]
      group_transparency := [("G1", 180), ("G2", 180)] }

/-- C6 (witness): adding `A` to `G1` keeps the invariant on a concrete
two-group state. -/
theorem C6_single_group_membership_witness :
    MemberOfAtMostOneGroup (add_set_to_group stC6w "A" "G1").1.parent_groups := by
  refine (C6_single_group_membership stC6w "A" "G1" "G1" "G2" (by decide)
    (by decide) (by decide) (by decide)).1 ?_
  intro x
  simp [groupMemberCount, stC6w]

/-! ## Claim C3

The parent relation is kept a forest by `set_parent` (whose cycle check is
proved sound above), `rename_set` (a pure relabelling of the graph) and
`delete_set` (which only removes edges).  `import_sets`, however, validates
imported parent pointers for existence only — a crafted file with
`parents = {A: B, B: A}` imports a two-cycle, so the invariant does not hold
in every reachable state. -/

theorem forest_set_parent (st : MState) (child : String) (pa : Option String)
    (hforest : Forest st.set_parents)
    (hval : ∀ e ∈ st.set_parents, e.2 ≠ some "")
    (hpa : pa ≠ some "") :
    Forest (set_parent st child pa).1.set_parents := by
  cases hc : dictContains st.sets child with
  | false =>
      simp only [set_parent, hc, Bool.not_false, if_true]
      exact hforest
  | true =>
      cases pa with
      | none =>
          simp only [set_parent, hc, Bool.not_true, Bool.false_eq_true, if_false]
          apply forest_mono _ hforest
          intro x y hxy
          by_cases hx : x = child
          · subst hx
            rw [dictLookup_dictInsert_self] at hxy
            simp at hxy
          · rwa [dictLookup_dictInsert_ne _ _ hx] at hxy
      | some p =>
          have hpne : p ≠ "" := fun h => hpa (by rw [h])
          cases hpc : dictContains st.sets p with
          | false =>
              simp only [set_parent, hc, hpc, hpne, Bool.not_true, Bool.not_false,
                Bool.false_eq_true, if_false, if_true, ite_false]
              exact hforest
          | true =>
              cases hw : would_create_circular_reference st child p with
              | true =>
                  simp only [set_parent, hc, hpc, hpne, hw, Bool.not_true,
                    Bool.false_eq_true, if_false, if_true, ite_false]
                  exact hforest
              | false =>
                  simp only [set_parent, hc, hpc, hpne, hw, Bool.not_true,
                    Bool.false_eq_true, if_false, ite_false]
                  apply forest_insert hforest
                  intro hr
                  have := wccr_true_of_reaches hval hpne hr
                  rw [hw] at this
                  cases this

theorem rename_edge_val {sp : List (String × Option String)}
    {old new x y : String} {w : Option String}
    (hnewv : ∀ e ∈ sp, e.2 ≠ some new)
    (hw : dictLookup sp x = some w)
    (hvf : (if w = some old then some new else w) = some y) :
    dictLookup sp x = some (some (if y = new then old else y)) := by
  by_cases hwold : w = some old
  · rw [if_pos hwold] at hvf
    have hy : y = new := by simpa using hvf.symm
    rw [hy, if_pos rfl, ← hwold]
    exact hw
  · rw [if_neg hwold] at hvf
    have hyne : ¬ (y = new) := fun h => hnewv _ (dictLookup_mem hw) (by rw [hvf, h])
    rw [if_neg hyne, ← hvf]
    exact hw

/-- Every edge of the renamed parent graph is, after undoing the renaming,
an edge of the original graph. -/
theorem rename_edge_map {sp : List (String × Option String)} {old new : String}
    (hkeys : (dictKeys sp).Nodup)
    (hnewlk : dictLookup sp new = none)
    (hnewv : ∀ e ∈ sp, e.2 ≠ some new) :
    ∀ x y, dictLookup ((moveKey sp old new).map
        (fun e => (e.1, if e.2 = some old then some new else e.2))) x =
        some (some y) →
      dictLookup sp (if x = new then old else x) =
        some (some (if y = new then old else y)) := by
  have hnewk : new ∉ dictKeys sp := by
    intro hm
    have := dictContains_eq_keys_mem.mpr hm
    rw [dictContains, hnewlk] at this
    cases this
  intro x y hxy
  have hxy' : (dictLookup (moveKey sp old new) x).map
      (fun v => if v = some old then some new else v) = some (some y) := by
    have h1 := dictLookup_map_value
      (fun v => if v = some old then some new else v) (moveKey sp old new) x
    rw [← h1]
    exact hxy
  cases hmv : dictLookup sp old with
  | none =>
      simp only [moveKey, hmv] at hxy'
      cases hlx : dictLookup sp x with
      | none => rw [hlx] at hxy'; simp at hxy'
      | some w =>
          rw [hlx] at hxy'
          have hvf : (if w = some old then some new else w) = some y := by
            simpa using hxy'
          have hxne : ¬ (x = new) := by
            intro h
            rw [h, hnewlk] at hlx
            cases hlx
          rw [if_neg hxne]
          exact rename_edge_val hnewv hlx hvf
  | some vold =>
      simp only [moveKey, hmv] at hxy'
      have hinsnd : (dictKeys (dictInsert sp new vold)).Nodup := by
        rw [dictKeys_dictInsert_of_none vold hnewlk]
        simp [List.nodup_append, hkeys, hnewk]
      by_cases hxo : x = old
      · rw [hxo, dictLookup_dictErase_self hinsnd] at hxy'
        simp at hxy'
      · rw [dictLookup_dictErase_ne _ hxo] at hxy'
        by_cases hxn : x = new
        · rw [hxn, dictLookup_dictInsert_self] at hxy'
          have hvf : (if vold = some old then some new else vold) = some y := by
            simpa using hxy'
          rw [if_pos hxn]
          exact rename_edge_val hnewv hmv hvf
        · rw [dictLookup_dictInsert_ne _ _ hxn] at hxy'
          cases hlx : dictLookup sp x with
          | none => rw [hlx] at hxy'; simp at hxy'
          | some w =>
              rw [hlx] at hxy'
              have hvf : (if w = some old then some new else w) = some y := by
                simpa using hxy'
              rw [if_neg hxn]
              exact rename_edge_val hnewv hlx hvf

theorem forest_rename_set (st : MState) (old new : String)
    (hforest : Forest st.set_parents)
    (hnew : dictContains st.sets new = false)
    (hkeys : (dictKeys st.set_parents).Nodup)
    (hwf : ∀ e ∈ st.set_parents, e.1 ∈ dictKeys st.sets ∧
      ∀ q, e.2 = some q → q ∈ dictKeys st.sets) :
    Forest (rename_set st old new).1.set_parents := by
  cases ho : dictContains st.sets old with
  | false =>
      simp only [rename_set, ho, Bool.not_false, if_true]
      exact hforest
  | true =>
      simp only [rename_set, ho, hnew, Bool.not_true, Bool.false_eq_true,
        if_false]
      have hnewlk : dictLookup st.set_parents new = none := by
        apply dictLookup_eq_none_of_not_mem_keys
        intro hmem
        obtain ⟨v, hv⟩ := dictContains_iff.mp (dictContains_eq_keys_mem.mpr hmem)
        have := (hwf _ (dictLookup_mem hv)).1
        rw [← dictContains_eq_keys_mem] at this
        rw [this] at hnew
        cases hnew
      have hnewv : ∀ e ∈ st.set_parents, e.2 ≠ some new := by
        intro e he hcontra
        have := (hwf e he).2 new hcontra
        rw [← dictContains_eq_keys_mem] at this
        rw [this] at hnew
        cases hnew
      refine forest_of_edge_map (fun z => if z = new then old else z) ?_ hforest
      intro x y hxy
      show dictLookup st.set_parents (if x = new then old else x) =
        some (some (if y = new then old else y))
      exact rename_edge_map hkeys hnewlk hnewv x y hxy

theorem forest_delete_set (st : MState) (name : String)
    (hforest : Forest st.set_parents)
    (hsets : (dictKeys st.sets).Nodup)
    (hkeys : (dictKeys st.set_parents).Nodup) :
    Forest (delete_set st name).1.set_parents := by
  cases hn : dictContains st.sets name with
  | false =>
      simp only [delete_set, hn, Bool.false_eq_true, if_false]
      exact hforest
  | true =>
      have herase : dictContains (dictErase st.sets name) name = false := by
        rw [dictContains, dictLookup_dictErase_self hsets]
        rfl
      simp only [delete_set, hn, if_true, remove_set_from_group, herase,
        Bool.not_false, if_true]
      apply forest_mono _ hforest
      intro x y hxy
      have hxy' : (dictLookup (dictErase st.set_parents name) x).map
          (fun v => if v = some name then none else v) = some (some y) := by
        have h1 := dictLookup_map_value
          (fun v => if v = some name then none else v)
          (dictErase st.set_parents name) x
        rw [← h1]
        exact hxy
      by_cases hx : x = name
      · subst hx
        rw [dictLookup_dictErase_self hkeys] at hxy'
        simp at hxy'
      · rw [dictLookup_dictErase_ne _ (fun h => hx h)] at hxy'
        cases hlx : dictLookup st.set_parents x with
        | none => rw [hlx] at hxy'; simp at hxy'
        | some w =>
            rw [hlx] at hxy'
            have hvf : (if w = some name then none else w) = some y := by
              simpa using hxy'
            by_cases hwn : w = some name
            · rw [if_pos hwn] at hvf
              cases hvf
            · rw [if_neg hwn] at hvf
              rw [hvf]

/-- C3 (amended): the forest invariant ("no set is its own ancestor") is
preserved by `set_parent` (when not invoked with the truthiness-defeating
empty-string parent name), by `rename_set`, and by `delete_set`; it is NOT
enforced by `import_sets`, which checks imported parent references for
existence only and can install a cycle from a crafted file (see the
counterexample). -/
theorem C3_forest_invariant (st : MState)
    (hforest : Forest st.set_parents) :
    ((∀ e ∈ st.set_parents, e.2 ≠ some "") →
      ∀ child pa, pa ≠ some "" →
        Forest (set_parent st child pa).1.set_parents) ∧
    ((dictKeys st.set_parents).Nodup →
      (∀ e ∈ st.set_parents, e.1 ∈ dictKeys st.sets ∧
        ∀ q, e.2 = some q → q ∈ dictKeys st.sets) →
      ∀ old new, dictContains st.sets new = false →
        Forest (rename_set st old new).1.set_parents) ∧
    ((dictKeys st.sets).Nodup → (dictKeys st.set_parents).Nodup →
      ∀ name, Forest (delete_set st name).1.set_parents) :=
  ⟨fun hval child pa hpa => forest_set_parent st child pa hforest hval hpa,
   fun hkeys hwf old new hnew => forest_rename_set st old new hforest hnew hkeys hwf,
   fun hsets hkeys name => forest_delete_set st name hforest hsets hkeys⟩

/-- C3 import counterexample data: two sets whose parent pointers form a
two-cycle. -/
def dataC3 : JValue :=
  JValue.jobj
    [("sets", JValue.jobj
       [("A", JValue.jarr [JValue.jstr "o"]),
        ("B", JValue.jarr [JValue.jstr "o"])]),
     ("parents", JValue.jobj
       [("A", JValue.jstr "B"), ("B", JValue.jstr "A")])]

/-- C3 (counterexample): importing `parents = {A: B, B: A}` succeeds and
produces a reachable state where `A` is its own (proper) ancestor — the
forest invariant is not preserved by `import_sets`. -/
theorem C3_counterexample :
    (import_sets (fun _ => true) (some dataC3) initState).2 = true ∧
    SelfAncestor (import_sets (fun _ => true)
        (some dataC3) initState).1.set_parents "A" := by
  refine ⟨by decide, ⟨"B", by decide,
    ⟨["B"], ReachesVia.step (by decide) (ReachesVia.refl "A")⟩⟩⟩

/-- C3 witness state: two independent sets, no edges. -/
def stC3w : MState :=
  { initState with
      sets := [("A", ["o1"]), ("B", ["o2"])]
      set_positions := [("A", (20, 20)), ("B", (40, 40))]
      set_colors := [("A", (70, 70, 70)), ("B", (70, 70, 70))]
      set_sizes := [("A", (200, 150)), ("B", (200, 150))]
      set_transparency := [("A", 180), ("B", 180)]
      set_parents := [("A", none), ("B", none)] }

/-- C3 (witness): the three preservation statements instantiated on a
concrete two-set state. -/
theorem C3_forest_invariant_witness :
    Forest (set_parent stC3w "A" (some "B")).1.set_parents ∧
    Forest (rename_set stC3w "A" "C").1.set_parents ∧
    Forest (delete_set stC3w "A").1.set_parents := by
  obtain ⟨h1, h2, h3⟩ := C3_forest_invariant stC3w (forest_of_no_edges (by decide))
  refine ⟨h1 (by decide) "A" (some "B") (by decide), ?_, h3 (by decide) (by decide) "A"⟩
  refine h2 (by decide) ?_ "A" "C" (by decide)
  intro e he
  have he' : e = ("A", none) ∨ e = ("B", none) := by
    simpa [stC3w, initState] using he
  rcases he' with rfl | rfl
  · exact ⟨by decide, fun q hq => Option.noConfusion hq⟩
  · exact ⟨by decide, fun q hq => Option.noConfusion hq⟩

/-! ## Claim C5

Renaming moves the whole property bundle and rewrites parent pointers and
group membership lists.  The code does all of that — except that the group
fix-up uses `list.remove(old)` followed by `append(new)`, which removes only
the FIRST occurrence: a group list containing the set twice (obtainable by
importing a file that lists a set twice under one group) keeps a dangling
occurrence of the old name.  The claim is amended to require that each group
lists the set at most once. -/

theorem dictLookup_eq_none_of_contains_false {α : Type}
    {l : List (String × α)} {k : String} (h : dictContains l k = false) :
    dictLookup l k = none := by
  cases hv : dictLookup l k with
  | none => rfl
  | some v =>
      rw [dictContains, hv] at h
      cases h

theorem erase_insert_getD_eq_moveKey {α : Type} (l : List (String × α))
    (old new : String) {v : α} (hv : dictLookup l old = some v) (dflt : α) :
    dictErase (dictInsert l new ((dictLookup l old).getD dflt)) old =
      moveKey l old new := by
  rw [moveKey, hv]
  rfl

theorem dictLookup_moveKey_new {α : Type} (l : List (String × α))
    {old new : String} (hne : old ≠ new)
    (hnewlk : dictLookup l new = none) :
    dictLookup (moveKey l old new) new = dictLookup l old := by
  cases hmv : dictLookup l old with
  | none => simp only [moveKey, hmv, hnewlk]
  | some v =>
      simp only [moveKey, hmv]
      rw [dictLookup_dictErase_ne _ (fun h => hne h.symm)]
      exact dictLookup_dictInsert_self _ _ _

theorem dictLookup_moveKey_old {α : Type} (l : List (String × α))
    {old new : String} (hne : old ≠ new) (hnd : (dictKeys l).Nodup)
    (hnewlk : dictLookup l new = none) :
    dictLookup (moveKey l old new) old = none := by
  cases hmv : dictLookup l old with
  | none => simp only [moveKey, hmv]
  | some v =>
      simp only [moveKey, hmv]
      apply dictLookup_dictErase_self
      rw [dictKeys_dictInsert_of_none v hnewlk]
      have hnewk : new ∉ dictKeys l := by
        intro hm
        have := dictContains_eq_keys_mem.mpr hm
        rw [dictContains, hnewlk] at this
        cases this
      simp [List.nodup_append, hnd, hnewk]

theorem dictLookup_moveKey_other {α : Type} (l : List (String × α))
    {old new c : String} (hco : c ≠ old) (hcn : c ≠ new) :
    dictLookup (moveKey l old new) c = dictLookup l c := by
  cases hmv : dictLookup l old with
  | none => simp only [moveKey, hmv]
  | some v =>
      simp only [moveKey, hmv]
      rw [dictLookup_dictErase_ne _ hco, dictLookup_dictInsert_ne _ _ hcn]

/-- Per-map key sets of a state are duplicate-free (always true: Python dict
keys are unique). -/
def SetKeysNodup (st : MState) : Prop :=
  (dictKeys st.sets).Nodup ∧ (dictKeys st.set_positions).Nodup ∧
  (dictKeys st.set_colors).Nodup ∧ (dictKeys st.set_sizes).Nodup ∧
  (dictKeys st.set_transparency).Nodup ∧ (dictKeys st.set_parents).Nodup

/-- The rename target name is unused across the per-set registries (true in
reachable states, whose property maps are keyed exactly by the set names). -/
def NewNameUnused (st : MState) (new : String) : Prop :=
  dictLookup st.set_positions new = none ∧
  dictLookup st.set_colors new = none ∧
  dictLookup st.set_sizes new = none ∧
  dictLookup st.set_transparency new = none ∧
  dictLookup st.set_parents new = none ∧
  ∀ e ∈ st.set_parents, e.2 ≠ some new

/-- Shape of a successful `rename_set`. -/
theorem rename_set_success_eq (st : MState) (old new : String)
    (hold : dictContains st.sets old = true)
    (hnew : dictContains st.sets new = false) :
    rename_set st old new =
      ({ st with
          sets := moveKey st.sets old new
          set_positions := moveKey st.set_positions old new
          set_colors := moveKey st.set_colors old new
          set_sizes := moveKey st.set_sizes old new
          set_transparency := moveKey st.set_transparency old new
          set_parents := (moveKey st.set_parents old new).map
            (fun e => (e.1, if e.2 = some old then some new else e.2))
          parent_groups := st.parent_groups.map
            (fun e => (e.1, if old ∈ e.2 then e.2.erase old ++ [new] else e.2)) },
       true) := by
  obtain ⟨v, hv⟩ := dictContains_iff.mp hold
  simp only [rename_set, hold, hnew, Bool.not_true, Bool.false_eq_true,
    if_false]
  rw [erase_insert_getD_eq_moveKey st.sets old new hv []]

/-- C5 (amended): renaming `old` to an unused name `new` succeeds, moves the
full property bundle (objects, position, color, size, transparency, and the
parent pointer — provided `old` was not recorded as its own parent, which no
forest state allows) to the key `new`, redirects every parent pointer that
referenced `old` to `new`, rewrites every group membership list, and leaves
no reference to `old` anywhere — provided each group lists `old` at most
once (a duplicate, importable from a crafted file, survives the single
`remove`). -/
theorem C5_rename_set_moves_bundle (st : MState) (old new : String)
    (hold : dictContains st.sets old = true)
    (hnew : dictContains st.sets new = false)
    (hnd : SetKeysNodup st)
    (hunused : NewNameUnused st new)
    (hdup : ∀ e ∈ st.parent_groups, e.2.count old ≤ 1) :
    (rename_set st old new).2 = true ∧
    dictLookup (rename_set st old new).1.sets new = dictLookup st.sets old ∧
    dictLookup (rename_set st old new).1.set_positions new =
      dictLookup st.set_positions old ∧
    dictLookup (rename_set st old new).1.set_colors new =
      dictLookup st.set_colors old ∧
    dictLookup (rename_set st old new).1.set_sizes new =
      dictLookup st.set_sizes old ∧
    dictLookup (rename_set st old new).1.set_transparency new =
      dictLookup st.set_transparency old ∧
    (dictLookup st.set_parents old ≠ some (some old) →
      dictLookup (rename_set st old new).1.set_parents new =
        dictLookup st.set_parents old) ∧
    (∀ c, c ≠ old → dictLookup st.set_parents c = some (some old) →
      dictLookup (rename_set st old new).1.set_parents c = some (some new)) ∧
    (∀ g, dictLookup (rename_set st old new).1.parent_groups g =
      (dictLookup st.parent_groups g).map
        (fun l => if old ∈ l then l.erase old ++ [new] else l)) ∧
    dictLookup (rename_set st old new).1.sets old = none ∧
    dictLookup (rename_set st old new).1.set_positions old = none ∧
    dictLookup (rename_set st old new).1.set_colors old = none ∧
    dictLookup (rename_set st old new).1.set_sizes old = none ∧
    dictLookup (rename_set st old new).1.set_transparency old = none ∧
    (∀ e ∈ (rename_set st old new).1.set_parents,
      e.1 ≠ old ∧ e.2 ≠ some old) ∧
    (∀ e ∈ (rename_set st old new).1.parent_groups, old ∉ e.2) := by
  obtain ⟨hndsets, hndpos, hndcol, hndsiz, hndtr, hndsp⟩ := hnd
  obtain ⟨hupos, hucol, husiz, hutr, husp, huspv⟩ := hunused
  have hone : old ≠ new := by
    intro h
    rw [h, hnew] at hold
    cases hold
  have hsetsnew : dictLookup st.sets new = none :=
    dictLookup_eq_none_of_contains_false hnew
  rw [rename_set_success_eq st old new hold hnew]
  have hsplk : ∀ k, dictLookup ((moveKey st.set_parents old new).map
      (fun e => (e.1, if e.2 = some old then some new else e.2))) k =
      (dictLookup (moveKey st.set_parents old new) k).map
        (fun v => if v = some old then some new else v) :=
    fun k => dictLookup_map_value
      (fun v => if v = some old then some new else v) _ k
  have hpglk : ∀ g, dictLookup (st.parent_groups.map
      (fun e => (e.1, if old ∈ e.2 then e.2.erase old ++ [new] else e.2))) g =
      (dictLookup st.parent_groups g).map
        (fun l => if old ∈ l then l.erase old ++ [new] else l) :=
    fun g => dictLookup_map_value
      (fun l => if old ∈ l then l.erase old ++ [new] else l) _ g
  refine ⟨rfl, dictLookup_moveKey_new _ hone hsetsnew,
    dictLookup_moveKey_new _ hone hupos,
    dictLookup_moveKey_new _ hone hucol,
    dictLookup_moveKey_new _ hone husiz,
    dictLookup_moveKey_new _ hone hutr, ?_, ?_, hpglk,
    dictLookup_moveKey_old _ hone hndsets hsetsnew,
    dictLookup_moveKey_old _ hone hndpos hupos,
    dictLookup_moveKey_old _ hone hndcol hucol,
    dictLookup_moveKey_old _ hone hndsiz husiz,
    dictLookup_moveKey_old _ hone hndtr hutr, ?_, ?_⟩
  · intro hnoself
    rw [hsplk, dictLookup_moveKey_new _ hone husp]
    cases hmv : dictLookup st.set_parents old with
    | none => rfl
    | some w =>
        have hwo : ¬ (w = some old) := by
          intro h
          rw [h] at hmv
          exact hnoself hmv
        simp [hwo]
  · intro c hco hc
    have hcn : c ≠ new := by
      intro h
      rw [h, husp] at hc
      cases hc
    rw [hsplk, dictLookup_moveKey_other _ hco hcn, hc]
    simp
  · intro e he
    obtain ⟨e', he', rfl⟩ := List.mem_map.mp he
    constructor
    · intro h
      have hk : e'.1 ∈ dictKeys (moveKey st.set_parents old new) :=
        List.mem_map_of_mem Prod.fst he'
      rw [h] at hk
      have := dictContains_eq_keys_mem.mpr hk
      rw [dictContains, dictLookup_moveKey_old _ hone hndsp husp] at this
      cases this
    · simp only
      by_cases hv : e'.2 = some old
      · rw [if_pos hv]
        intro h
        have : old = new := by simpa using h.symm
        exact hone this
      · rw [if_neg hv]
        exact hv
  · intro e he
    obtain ⟨e', he', rfl⟩ := List.mem_map.mp he
    simp only
    by_cases hv : old ∈ e'.2
    · rw [if_pos hv]
      intro hmem
      rcases List.mem_append.mp hmem with hmem | hmem
      · have h1 := hdup e' he'
        have h2 : e'.2.count old ≥ 1 := List.count_pos_iff.mpr hv
        have h3 : (e'.2.erase old).count old = 0 := by
          rw [List.count_erase_self]
          omega
        have := List.count_pos_iff.mpr hmem
        omega
      · have : old = new := by simpa using hmem
        exact hone this
    · rw [if_neg hv]
      exact hv

/-- C5 counterexample state: group `G` lists `A` twice (importable from a
file whose `parent_groups` entry repeats the name). -/
def stC5x : MState :=
  { initState with
      sets := [("A", ["o1"])]
      set_positions := [("A", (20, 20))]
      set_colors := [("A", (70, 70, 70))]
      set_sizes := [("A", (200, 150))]
      set_transparency := [("A", 180)]
      set_parents := [("A", none)]
      parent_groups := [("G", ["A", "A"])]
      group_positions := [("G", (20, 20))]
      group_colors := [("G", (100, 100, 60))]
      group_sizes := [("G", (300, 200))]
      group_transparency := [("G", 180)] }

/-- C5 (counterexample): renaming `A` to the unused name `B` succeeds but
leaves a dangling occurrence of `A` in `G`'s member list (only the first
occurrence is replaced), refuting "no dangling references to X anywhere". -/
theorem C5_counterexample :
    dictContains stC5x.sets "A" = true ∧
    dictContains stC5x.sets "B" = false ∧
    (rename_set stC5x "A" "B").2 = true ∧
    dictLookup (rename_set stC5x "A" "B").1.parent_groups "G" =
      some ["A", "B"] := by
  decide

/-- C5 witness state: `A` with child `C`, `A` in group `G` once. -/
def stC5w : MState :=
  { initState with
      sets := [("A", ["o1"]), ("C", ["o2"])]
      set_positions := [("A", (20, 20)), ("C", (40, 40))]
      set_colors := [("A", (70, 70, 70)), ("C", (70, 70, 70))]
      set_sizes := [("A", (200, 150)), ("C", (200, 150))]
      set_transparency := [("A", 180), ("C", 180)]
      set_parents := [("A", none), ("C", some "A")]
      parent_groups := [("G", ["A"])]
      group_positions := [("G", (20, 20))]
      group_colors := [("G", (100, 100, 60))]
      group_sizes := [("G", (300, 200))]
      group_transparency := [("G", 180)] }

/-- C5 (witness): renaming `A` to `B` on a concrete state succeeds, moves
the object list, and leaves no `A` key in the set registry. -/
theorem C5_rename_set_moves_bundle_witness :
    (rename_set stC5w "A" "B").2 = true ∧
    dictLookup (rename_set stC5w "A" "B").1.sets "B" = some ["o1"] ∧
    dictLookup (rename_set stC5w "A" "B").1.sets "A" = none := by
  have h := C5_rename_set_moves_bundle stC5w "A" "B" (by decide) (by decide)
    (by constructor <;> decide)
    (by
      refine ⟨by decide, by decide, by decide, by decide, by decide, ?_⟩
      decide)
    (by decide)
  refine ⟨h.1, ?_, h.2.2.2.2.2.2.2.2.2.1⟩
  rw [h.2.1]
  decide

/-! ## Claim C4

Export followed by import on an unmodified scene (every recorded object
still exists; all recorded sets are non-empty, as every code path creating a
set guarantees; parent pointers reference existing sets) reproduces the set
names, membership lists and parent pointers exactly. -/

theorem decStrList_enc (l : List String) :
    decStrList (encStrList l) = some l := by
  show decStrListAux (l.map JValue.jstr) = some l
  induction l with
  | nil => rfl
  | cons x t ih =>
      simp [List.map_cons, decStrListAux, ih]

theorem decPair_encPair (p : Int × Int) : decPair (encPair p) = some p := rfl

theorem decTriple_encTriple (p : Int × Int × Int) :
    decTriple (encTriple p) = some p := rfl

/-- Per-name field import always succeeds on an encoded section. -/
theorem importField_enc {α : Type} (enc : α → JValue) (dec : JValue → Option α)
    (hrt : ∀ a, dec (enc a) = some a) (P : List (String × α)) (name : String)
    (dflt : α) : ∃ v, importField (encDict enc P) name dec dflt = some v := by
  show ∃ v, importField (JValue.jobj (P.map (fun e => (e.1, enc e.2)))) name dec dflt = some v
  have h1 : dictLookup (P.map (fun e => (e.1, enc e.2))) name =
      (dictLookup P name).map enc := dictLookup_map_value enc P name
  cases hP : dictLookup P name with
  | none =>
      have h2 : dictLookup (P.map (fun e => (e.1, enc e.2))) name = none := by
        rw [h1, hP]
        rfl
      exact ⟨dflt, by simp [importField, h2]⟩
  | some a =>
      have h2 : dictLookup (P.map (fun e => (e.1, enc e.2))) name = some (enc a) := by
        rw [h1, hP]
        rfl
      exact ⟨a, by simp [importField, h2, hrt a]⟩

theorem importChannelEntries_jbool :
    ∀ (l : List (String × Bool)) (ch : List (String × Bool)),
      ∃ ch', importChannelEntries ch
        (l.map (fun e => (e.1, JValue.jbool e.2))) = some ch' := by
  intro l
  induction l with
  | nil => exact fun ch => ⟨ch, rfl⟩
  | cons e t ih =>
      intro ch
      simp only [List.map_cons, importChannelEntries]
      cases hc : dictContains ch e.1 with
      | true =>
          simp only [if_pos rfl]
          exact ih (dictInsert ch e.1 e.2)
      | false =>
          simp only [Bool.false_eq_true, if_false]
          exact ih ch

theorem importChannels_ok (st : MState) (l : List (String × Bool)) :
    ∃ s, importChannels st
      (JValue.jobj (l.map (fun e => (e.1, JValue.jbool e.2)))) =
        Except.ok s := by
  unfold importChannels
  cases ht : (JValue.jobj (l.map (fun e => (e.1, JValue.jbool e.2)))).truthy with
  | false => exact ⟨st, by simp [ht]⟩
  | true =>
      obtain ⟨ch', hch⟩ := importChannelEntries_jbool l st.active_channels
      refine ⟨{ st with active_channels := ch' }, ?_⟩
      simp [ht, hch]

/-- A single encoded set imports as one `dictInsert`, touching nothing else
relevant. -/
theorem importOneSet_encoded (scene : String → Bool)
    (P : List (String × Int × Int)) (C : List (String × Int × Int × Int))
    (SZ : List (String × Int × Int)) (T : List (String × Int))
    (acc : MState) (name : String) (objs : List String)
    (hne : objs ≠ []) (hsc : ∀ o ∈ objs, scene o = true) :
    ∃ s, importOneSet scene (encDict encPair P) (encDict encTriple C)
        (encDict encPair SZ) (encDict (fun n => JValue.jnum n) T)
        acc name (encStrList objs) = Except.ok s ∧
      s.sets = dictInsert acc.sets name objs ∧
      s.set_parents = acc.set_parents := by
  have hfilter : objs.filter scene = objs := List.filter_eq_self.mpr hsc
  have hempty : (objs.filter scene).isEmpty = false := by
    rw [hfilter]
    cases objs with
    | nil => exact absurd rfl hne
    | cons x t => rfl
  obtain ⟨p1, hp1⟩ := importField_enc encPair decPair decPair_encPair P name
    (20, 20 + Int.ofNat (dictInsert acc.sets name (objs.filter scene)).length * 30)
  obtain ⟨c1, hc1⟩ := importField_enc encTriple decTriple decTriple_encTriple C
    name (70, 70, 70)
  obtain ⟨z1, hz1⟩ := importField_enc encPair decPair decPair_encPair SZ name
    (200, 150)
  obtain ⟨t1, ht1⟩ := importField_enc (fun n => JValue.jnum n) decInt
    (fun a => rfl) T name 180
  refine ⟨{ acc with
      sets := dictInsert acc.sets name (objs.filter scene)
      set_positions := dictInsert acc.set_positions name p1
      set_colors := dictInsert acc.set_colors name c1
      set_sizes := dictInsert acc.set_sizes name z1
      set_transparency := dictInsert acc.set_transparency name t1 }, ?_, ?_, rfl⟩
  · simp only [importOneSet, decStrList_enc, hempty, Bool.false_eq_true,
      if_false, hp1, hc1, hz1, ht1]
  · simp only [hfilter]

theorem importSetsLoop_encoded (scene : String → Bool)
    (P : List (String × Int × Int)) (C : List (String × Int × Int × Int))
    (SZ : List (String × Int × Int)) (T : List (String × Int)) :
    ∀ (l : List (String × List String)) (acc : MState),
      (∀ e ∈ l, e.2 ≠ [] ∧ ∀ o ∈ e.2, scene o = true) →
      (∀ e ∈ l, e.1 ∉ dictKeys acc.sets) →
      (dictKeys l).Nodup →
      ∃ s, importSetsLoop scene (encDict encPair P) (encDict encTriple C)
          (encDict encPair SZ) (encDict (fun n => JValue.jnum n) T) acc
          (l.map (fun e => (e.1, encStrList e.2))) = Except.ok s ∧
        s.sets = acc.sets ++ l ∧ s.set_parents = acc.set_parents := by
  intro l
  induction l with
  | nil => exact fun acc _ _ _ => ⟨acc, rfl, by simp, rfl⟩
  | cons e t ih =>
      intro acc hgood hfresh hnd
      obtain ⟨s1, h1, hsets1, hsp1⟩ := importOneSet_encoded scene P C SZ T acc
        e.1 e.2 (hgood e (by simp)).1 (hgood e (by simp)).2
      have hfresh1 : dictLookup acc.sets e.1 = none :=
        dictLookup_eq_none_of_not_mem_keys (hfresh e (by simp))
      have hsets1' : s1.sets = acc.sets ++ [e] := by
        rw [hsets1, dictInsert_eq_append _ hfresh1]
      simp only [dictKeys, List.map_cons, List.nodup_cons] at hnd
      obtain ⟨s2, h2, hsets2, hsp2⟩ := ih s1
        (fun x hx => hgood x (List.mem_cons_of_mem _ hx))
        (by
          intro x hx
          rw [hsets1']
          simp only [dictKeys, List.map_append, List.mem_append]
          rintro (hmem | hmem)
          · exact hfresh x (List.mem_cons_of_mem _ hx) hmem
          · simp only [List.map_cons, List.map_nil, List.mem_singleton] at hmem
            exact hnd.1 (hmem ▸ List.mem_map_of_mem Prod.fst hx))
        hnd.2
      refine ⟨s2, ?_, ?_, by rw [hsp2, hsp1]⟩
      · simp only [List.map_cons, importSetsLoop, h1]
        exact h2
      · rw [hsets2, hsets1']
        simp

theorem importParentsLoop_encoded :
    ∀ (l : List (String × Option String)) (acc : MState),
      (∀ e ∈ l, e.1 ∈ dictKeys acc.sets ∧
        ∀ q, e.2 = some q → q ∈ dictKeys acc.sets) →
      (∀ e ∈ l, e.1 ∉ dictKeys acc.set_parents) →
      (dictKeys l).Nodup →
      ∃ s, importParentsLoop acc (l.map (fun e => (e.1, encParent e.2))) =
          Except.ok s ∧
        s.set_parents = acc.set_parents ++ l ∧ s.sets = acc.sets := by
  intro l
  induction l with
  | nil => exact fun acc _ _ _ => ⟨acc, rfl, by simp, rfl⟩
  | cons e t ih =>
      intro acc hgood hfresh hnd
      have hname : dictContains acc.sets e.1 = true :=
        dictContains_eq_keys_mem.mpr (hgood e (by simp)).1
      have hfresh1 : dictLookup acc.set_parents e.1 = none :=
        dictLookup_eq_none_of_not_mem_keys (hfresh e (by simp))
      simp only [dictKeys, List.map_cons, List.nodup_cons] at hnd
      have hstep : ∀ (acc' : MState),
          acc'.set_parents = acc.set_parents ++ [e] → acc'.sets = acc.sets →
          (∃ s, importParentsLoop acc' (t.map (fun x => (x.1, encParent x.2))) =
              Except.ok s ∧
            s.set_parents = acc.set_parents ++ (e :: t) ∧ s.sets = acc.sets) := by
        intro acc' hsp hsets
        obtain ⟨s2, h2, hsp2, hsets2⟩ := ih acc'
          (by
            rw [hsets]
            exact fun x hx => hgood x (List.mem_cons_of_mem _ hx))
          (by
            intro x hx
            rw [hsp]
            simp only [dictKeys, List.map_append, List.mem_append]
            rintro (hmem | hmem)
            · exact hfresh x (List.mem_cons_of_mem _ hx) hmem
            · simp only [List.map_cons, List.map_nil, List.mem_singleton] at hmem
              exact hnd.1 (hmem ▸ List.mem_map_of_mem Prod.fst hx))
          hnd.2
        refine ⟨s2, h2, ?_, by rw [hsets2, hsets]⟩
        rw [hsp2, hsp]
        simp
      obtain ⟨name, p⟩ := e
      cases p with
      | none =>
          obtain ⟨s2, h2, hsp2, hsets2⟩ := hstep
            { acc with set_parents := dictInsert acc.set_parents name none }
            (by
              show dictInsert acc.set_parents name none =
                acc.set_parents ++ [(name, none)]
              exact dictInsert_eq_append _ hfresh1)
            rfl
          refine ⟨s2, ?_, hsp2, hsets2⟩
          simp only [List.map_cons, importParentsLoop, encParent, hname,
            if_pos rfl]
          exact h2
      | some q =>
          have hq : dictContains acc.sets q = true :=
            dictContains_eq_keys_mem.mpr ((hgood (name, some q) (by simp)).2 q rfl)
          obtain ⟨s2, h2, hsp2, hsets2⟩ := hstep
            { acc with set_parents := dictInsert acc.set_parents name (some q) }
            (by
              show dictInsert acc.set_parents name (some q) =
                acc.set_parents ++ [(name, some q)]
              exact dictInsert_eq_append _ hfresh1)
            rfl
          refine ⟨s2, ?_, hsp2, hsets2⟩
          simp only [List.map_cons, importParentsLoop, encParent, hname, hq,
            if_pos rfl]
          exact h2

theorem decMemberListAux_ok (sets : List (String × List String)) :
    ∀ (l : List String), ∃ v, decMemberListAux sets (l.map JValue.jstr) = some v := by
  intro l
  induction l with
  | nil => exact ⟨[], rfl⟩
  | cons x t ih =>
      obtain ⟨v, hv⟩ := ih
      simp only [List.map_cons, decMemberListAux, hv]
      cases hc : dictContains sets x with
      | true => exact ⟨x :: v, by simp⟩
      | false => exact ⟨v, by simp⟩

theorem importOneGroup_encoded (GP : List (String × Int × Int))
    (GC : List (String × Int × Int × Int)) (GS : List (String × Int × Int))
    (GT : List (String × Int)) (acc : MState) (name : String)
    (members : List String) :
    ∃ s, importOneGroup (encDict encPair GP) (encDict encTriple GC)
        (encDict encPair GS) (encDict (fun n => JValue.jnum n) GT)
        acc name (encStrList members) = Except.ok s ∧
      s.sets = acc.sets ∧ s.set_parents = acc.set_parents := by
  obtain ⟨v, hv⟩ := decMemberListAux_ok acc.sets members
  obtain ⟨p1, hp1⟩ := importField_enc encPair decPair decPair_encPair GP name
    (20, 20 + Int.ofNat (dictInsert acc.parent_groups name v).length * 30)
  obtain ⟨c1, hc1⟩ := importField_enc encTriple decTriple decTriple_encTriple GC
    name (100, 100, 60)
  obtain ⟨z1, hz1⟩ := importField_enc encPair decPair decPair_encPair GS name
    (300, 200)
  obtain ⟨t1, ht1⟩ := importField_enc (fun n => JValue.jnum n) decInt
    (fun a => rfl) GT name 180
  refine ⟨{ acc with
      parent_groups := dictInsert acc.parent_groups name v
      group_positions := dictInsert acc.group_positions name p1
      group_colors := dictInsert acc.group_colors name c1
      group_sizes := dictInsert acc.group_sizes name z1
      group_transparency := dictInsert acc.group_transparency name t1 },
    ?_, rfl, rfl⟩
  show importOneGroup _ _ _ _ _ _ (JValue.jarr (members.map JValue.jstr)) = _
  simp only [importOneGroup, decMemberList, hv, hp1, hc1, hz1, ht1]

theorem importGroupsLoop_encoded (GP : List (String × Int × Int))
    (GC : List (String × Int × Int × Int)) (GS : List (String × Int × Int))
    (GT : List (String × Int)) :
    ∀ (l : List (String × List String)) (acc : MState),
      ∃ s, importGroupsLoop (encDict encPair GP) (encDict encTriple GC)
          (encDict encPair GS) (encDict (fun n => JValue.jnum n) GT) acc
          (l.map (fun e => (e.1, encStrList e.2))) = Except.ok s ∧
        s.sets = acc.sets ∧ s.set_parents = acc.set_parents := by
  intro l
  induction l with
  | nil => exact fun acc => ⟨acc, rfl, rfl, rfl⟩
  | cons e t ih =>
      intro acc
      obtain ⟨s1, h1, hsets1, hsp1⟩ :=
        importOneGroup_encoded GP GC GS GT acc e.1 e.2
      obtain ⟨s2, h2, hsets2, hsp2⟩ := ih s1
      refine ⟨s2, ?_, by rw [hsets2, hsets1], by rw [hsp2, hsp1]⟩
      simp only [List.map_cons, importGroupsLoop, h1]
      exact h2

/-- C4: exporting a state and importing the produced document into any
manager, in an unmodified scene (every recorded object exists; every set is
non-empty, as all creation paths guarantee; parent keys and values reference
existing sets; dictionary keys are unique, as Python guarantees), reproduces
the set names, the membership list of every set, and every parent pointer
exactly; objects missing from the scene are the only thing the import drops. -/
theorem C4_export_import_roundtrip (scene : String → Bool) (st st0 : MState)
    (hobj : ∀ e ∈ st.sets, e.2 ≠ [] ∧ ∀ o ∈ e.2, scene o = true)
    (hkeys : (dictKeys st.sets).Nodup)
    (hpkeys : (dictKeys st.set_parents).Nodup)
    (hpar : ∀ e ∈ st.set_parents, e.1 ∈ dictKeys st.sets ∧
      ∀ q, e.2 = some q → q ∈ dictKeys st.sets) :
    ∃ st', import_sets scene (some (export_data st)) st0 = (st', true) ∧
      st'.sets = st.sets ∧ st'.set_parents = st.set_parents := by
  have hg_ch : jGet (exportEntries st) "channels" =
      JValue.jobj (st.active_channels.map (fun e => (e.1, JValue.jbool e.2))) := rfl
  have hg_sets : jGet (exportEntries st) "sets" = encDict encStrList st.sets := rfl
  have hg_pos : jGet (exportEntries st) "positions" =
      encDict encPair st.set_positions := rfl
  have hg_col : jGet (exportEntries st) "colors" =
      encDict encTriple st.set_colors := rfl
  have hg_siz : jGet (exportEntries st) "sizes" =
      encDict encPair st.set_sizes := rfl
  have hg_tr : jGet (exportEntries st) "transparency" =
      encDict (fun n => JValue.jnum n) st.set_transparency := rfl
  have hg_par : jGet (exportEntries st) "parents" =
      encDict encParent st.set_parents := rfl
  have hg_pg : jGet (exportEntries st) "parent_groups" =
      encDict encStrList st.parent_groups := rfl
  have hg_gp : jGet (exportEntries st) "group_positions" =
      encDict encPair st.group_positions := rfl
  have hg_gc : jGet (exportEntries st) "group_colors" =
      encDict encTriple st.group_colors := rfl
  have hg_gs : jGet (exportEntries st) "group_sizes" =
      encDict encPair st.group_sizes := rfl
  have hg_gt : jGet (exportEntries st) "group_transparency" =
      encDict (fun n => JValue.jnum n) st.group_transparency := rfl
  have hcontains : dictContains (exportEntries st) "sets" = true := rfl
  obtain ⟨st1, h1⟩ := importChannels_ok st0 st.active_channels
  obtain ⟨s2, h2, hsets2, hsp2⟩ := importSetsLoop_encoded scene
    st.set_positions st.set_colors st.set_sizes st.set_transparency
    st.sets (clearRegistries st1) hobj
    (by
      intro e he
      show e.1 ∉ dictKeys ([] : List (String × List String))
      simp [dictKeys])
    hkeys
  have hsets2' : s2.sets = st.sets := by
    rw [hsets2]
    show ([] : List (String × List String)) ++ st.sets = st.sets
    simp
  have hsp2' : s2.set_parents = [] := hsp2
  obtain ⟨s3, h3, hsp3, hsets3⟩ := importParentsLoop_encoded st.set_parents s2
    (by
      intro e he
      rw [hsets2']
      exact hpar e he)
    (by
      intro e he
      rw [hsp2']
      simp [dictKeys])
    hpkeys
  have hsp3' : s3.set_parents = st.set_parents := by
    rw [hsp3, hsp2']
    simp
  obtain ⟨s4, h4, hsets4, hsp4⟩ := importGroupsLoop_encoded st.group_positions
    st.group_colors st.group_sizes st.group_transparency st.parent_groups s3
  have hcore : importCore scene (exportEntries st) st0 = Except.ok s4 := by
    have h2' := h2
    have h3' := h3
    have h4' := h4
    simp only [encDict] at h2' h3' h4'
    simp only [importCore, hg_ch, h1, hg_sets, hg_pos, hg_col, hg_siz, hg_tr,
      hg_par, hg_pg, hg_gp, hg_gc, hg_gs, hg_gt, encDict, h2', h3', h4']
  refine ⟨s4, ?_, ?_, ?_⟩
  · show import_sets scene (some (JValue.jobj (exportEntries st))) st0 = (s4, true)
    simp only [import_sets, hcontains, if_true, hcore]
  · rw [hsets4, hsets3, hsets2']
  · rw [hsp4, hsp3']

/-- C4 witness state: one set `A` with one object and a null parent
pointer. -/
def stC4w : MState :=
  { initState with
      sets := [("A", ["o1"])]
      set_positions := [("A", (20, 20))]
      set_colors := [("A", (70, 70, 70))]
      set_sizes := [("A", (200, 150))]
      set_transparency := [("A", 180)]
      set_parents := [("A", none)] }

/-- C4 (witness): the round trip on a concrete one-set state reproduces the
set registry and the parent map. -/
theorem C4_export_import_roundtrip_witness :
    ∃ st', import_sets (fun _ => true) (some (export_data stC4w))
        initState = (st', true) ∧
      st'.sets = stC4w.sets ∧ st'.set_parents = stC4w.set_parents := by
  refine C4_export_import_roundtrip (fun _ => true) stC4w initState ?_
    (by decide) (by decide) ?_
  · intro e he
    have he' : e = ("A", ["o1"]) := by simpa [stC4w, initState] using he
    subst he'
    exact ⟨by decide, by intro o ho; rfl⟩
  · intro e he
    have he' : e = ("A", none) := by simpa [stC4w, initState] using he
    subst he'
    exact ⟨by decide, fun q hq => Option.noConfusion hq⟩

end SelMgr
